import Mathlib

/-!
Verification development for the don-tools-api OpenAPI tooling core.

Three subsystems are embedded, each in its own namespace, translated from
the repository sources:

* `VersionService` — the Go OpenAPI 3.0 ⇄ 3.1 dialect converter
  (`src/pkg/api_client/services/oas_version_service.go`), modelled from the
  point after `json.Unmarshal`: documents are decoded JSON values.  JSON
  numbers are modelled as integers (no claim involves non-integral numerics)
  and Go maps as association lists with unique keys; Go map iteration order
  is unspecified, and every modelled transform is order-independent per node.
* `Decycler` — the JavaScript cycle-safe bundler
  (`src/services/OasBundleService.js`, `decycleDocument`), over an explicit
  heap of object/array nodes addressed by integers so that identity cycles
  and identity-based traversal (`WeakSet`/`WeakMap`) are expressible.
* `Resolver` — the JavaScript reference resolver
  (`src/services/OasDereferenceService.js`, `RefResolver`), with the network
  fetcher, text parser and URL library abstracted as function parameters and
  a log recording every fetcher invocation.
-/

/-- Strip leading and trailing whitespace (Go `strings.TrimSpace`, JS
`String.prototype.trim`), written over the character list so that concrete
instances evaluate inside the kernel. -/
def trimSpace (s : String) : String :=
  ⟨((s.data.dropWhile Char.isWhitespace).reverse.dropWhile Char.isWhitespace).reverse⟩

/-- Prefix test (Go `strings.HasPrefix`, JS `String.prototype.startsWith`),
written over the character list so that concrete instances evaluate. -/
def strStartsWith (s p : String) : Bool :=
  p.data.isPrefixOf s.data

namespace VersionService

/-- A decoded JSON value as produced by Go's `encoding/json` into
`map[string]any` / `[]any` / scalars.  Numbers are modelled as integers. -/
inductive GoVal where
  | null
  | bool (b : Bool)
  | num (n : Int)
  | str (s : String)
  | arr (elems : List GoVal)
  | obj (fields : List (String × GoVal))

/-- Key lookup in a decoded JSON object (Go: `v[key]` with presence). -/
def getKey : List (String × GoVal) → String → Option GoVal
  | [], _ => none
  | (k, v) :: rest, key => if k = key then some v else getKey rest key

/-- Key assignment in a decoded JSON object (Go: `v[key] = val`). -/
def setKey : List (String × GoVal) → String → GoVal → List (String × GoVal)
  | [], key, v => [(key, v)]
  | (k, w) :: rest, key, v =>
      if k = key then (k, v) :: rest else (k, w) :: setKey rest key v

/-- Key removal in a decoded JSON object (Go: `delete(v, key)`). -/
def delKey : List (String × GoVal) → String → List (String × GoVal)
  | [], _ => []
  | (k, w) :: rest, key =>
      if k = key then delKey rest key else (k, w) :: delKey rest key

/-- Whether a decoded value is JSON `null` (Go: `item == nil`). -/
def GoVal.isNull : GoVal → Bool
  | .null => true
  | _ => false

/-- Whether a type-array entry is the string `"null"`
(Go: `s, ok := t.(string); ok && s == "null"`). -/
def isNullString : GoVal → Bool
  | .str s => s = "null"
  | _ => false

/-- `mergeTypeWithNull` from `oas_version_service.go`: rewrite the `type`
field so that it admits `null`.  The Go `switch current := m["type"].(type)`
sends a missing key and an explicit JSON `null` to the same `nil` case. -/
def mergeTypeWithNull (m : List (String × GoVal)) : List (String × GoVal) :=
  match getKey m "type" with
  | some (.str current) =>
      if current = "" then setKey m "type" (.arr [.str "null"])
      else setKey m "type" (.arr [.str current, .str "null"])
  | some (.arr current) =>
      if current.any isNullString then m
      else setKey m "type" (.arr (current ++ [.str "null"]))
  | none => setKey m "type" (.arr [.str "null"])
  | some .null => setKey m "type" (.arr [.str "null"])
  | some _ => setKey m "type" (.arr [.str "null"])

/-- `normalizeTypeArray` from `oas_version_service.go`: on an array-valued
`type`, drop `"null"` entries (recording `nullable: true`) and `nil` items,
then delete / collapse / keep the remainder by its length. -/
def normalizeTypeArray (m : List (String × GoVal)) : List (String × GoVal) :=
  match getKey m "type" with
  | some (.arr arr) =>
      let filtered := arr.filter fun item => !(isNullString item) && !(item.isNull)
      let hasNull := arr.any isNullString
      let m1 := if hasNull then setKey m "nullable" (.bool true) else m
      match filtered with
      | [] => delKey m1 "type"
      | [t] => setKey m1 "type" t
      | _ => setKey m1 "type" (.arr filtered)
  | _ => m

/-- `normalizeEnumNull` from `oas_version_service.go`: strip `null` entries
from an array-valued `enum`, set `nullable: true` if any were removed,
delete an emptied `enum`, and rewrite `enum` only when it changed. -/
def normalizeEnumNull (m : List (String × GoVal)) : List (String × GoVal) :=
  match getKey m "enum" with
  | some (.arr values) =>
      let filtered := values.filter fun item => !(item.isNull)
      let hasNull := values.any GoVal.isNull
      let m1 := if hasNull then setKey m "nullable" (.bool true) else m
      if filtered.isEmpty then delKey m1 "enum"
      else if filtered.length ≠ values.length then setKey m1 "enum" (.arr filtered)
      else m1
  | _ => m

/-- The `const` rewrite inside `convertSchemas31To30`: if `const` is present,
seed `enum` with it when `enum` is absent, then delete `const`. -/
def constToEnum (m : List (String × GoVal)) : List (String × GoVal) :=
  match getKey m "const" with
  | some constVal =>
      let m1 := if (getKey m "enum").isNone then setKey m "enum" (.arr [constVal]) else m
      delKey m1 "const"
  | none => m

mutual

/-- `convertSchemas30To31` from `oas_version_service.go`: recursive 3.0 → 3.1
schema rewrite (children first, then the `nullable: true` rewrite). -/
def convertSchemas30To31 : GoVal → GoVal
  | .obj fields =>
      let fields' := conv30Fields fields
      match getKey fields' "nullable" with
      | some (.bool true) => .obj (delKey (mergeTypeWithNull fields') "nullable")
      | _ => .obj fields'
  | .arr items => .arr (conv30List items)
  | v => v
termination_by structural v => v

/-- Child recursion of `convertSchemas30To31` over an object's values. -/
def conv30Fields : List (String × GoVal) → List (String × GoVal)
  | [] => []
  | (k, v) :: rest => (k, convertSchemas30To31 v) :: conv30Fields rest
termination_by structural l => l

/-- Child recursion of `convertSchemas30To31` over an array's items. -/
def conv30List : List GoVal → List GoVal
  | [] => []
  | v :: rest => convertSchemas30To31 v :: conv30List rest
termination_by structural l => l

end

/-- The `map[string]any` case of `convertSchemas30To31`, on the field list
(the body of the `.obj` case above, reused at the document root by
`ConvertVersion`). -/
def convertSchemas30To31Obj (fields : List (String × GoVal)) : List (String × GoVal) :=
  let fields' := conv30Fields fields
  match getKey fields' "nullable" with
  | some (.bool true) => delKey (mergeTypeWithNull fields') "nullable"
  | _ => fields'

mutual

/-- `convertSchemas31To30` from `oas_version_service.go`: recursive 3.1 → 3.0
schema rewrite (children first, then `const`, `type`-array and `enum`-null
normalisation at the node). -/
def convertSchemas31To30 : GoVal → GoVal
  | .obj fields => .obj (normalizeEnumNull (normalizeTypeArray (constToEnum (conv31Fields fields))))
  | .arr items => .arr (conv31List items)
  | v => v
termination_by structural v => v

/-- Child recursion of `convertSchemas31To30` over an object's values. -/
def conv31Fields : List (String × GoVal) → List (String × GoVal)
  | [] => []
  | (k, v) :: rest => (k, convertSchemas31To30 v) :: conv31Fields rest
termination_by structural l => l

/-- Child recursion of `convertSchemas31To30` over an array's items. -/
def conv31List : List GoVal → List GoVal
  | [] => []
  | v :: rest => convertSchemas31To30 v :: conv31List rest
termination_by structural l => l

end

/-- The `map[string]any` case of `convertSchemas31To30`, on the field list
(the body of the `.obj` case above, reused at the document root by
`ConvertVersion`). -/
def convertSchemas31To30Obj (fields : List (String × GoVal)) : List (String × GoVal) :=
  normalizeEnumNull (normalizeTypeArray (constToEnum (conv31Fields fields)))

/-- The fixed 3.1 base dialect URI set by the converter. -/
def jsonSchemaDialectBase : String := "https://spec.openapis.org/oas/3.1/dialect/base"

/-- Errors of `ConvertVersion`. -/
inductive ConvErr where
  | versionFieldMissing
  | unsupportedVersion
deriving Repr, DecidableEq

/-- Go's `fmt.Sprint` restricted to decoded JSON values as they can appear
under `spec["openapi"]`.  A missing key and an explicit `null` both render
`"<nil>"`.  Composite values render with a leading `[` or `map[` and are
abbreviated here; integers render in decimal. -/
def goSprint : Option GoVal → String
  | none => "<nil>"
  | some .null => "<nil>"
  | some (.str s) => s
  | some (.bool b) => if b then "true" else "false"
  | some (.num n) => toString n
  | some (.arr _) => "[…]"
  | some (.obj _) => "map[…]"

/-- `ConvertVersion` from `oas_version_service.go`, modelled from the point
after `json.Unmarshal` (text encoding, YAML transport and re-serialisation
are outside the model): version sniffing via `fmt.Sprint` + `TrimSpace`,
then the directional schema rewrite and root-level field fixups. -/
def convertVersion (spec : List (String × GoVal)) : Except ConvErr (List (String × GoVal)) :=
  let rawVersion := trimSpace (goSprint (getKey spec "openapi"))
  if rawVersion = "" then .error .versionFieldMissing
  else if strStartsWith rawVersion "3.0" then
    let s1 := convertSchemas30To31Obj spec
    let s2 :=
      if (getKey s1 "jsonSchemaDialect").isNone then
        setKey s1 "jsonSchemaDialect" (.str jsonSchemaDialectBase)
      else s1
    let s3 :=
      match getKey s2 "x-webhooks" with
      | some webhooks =>
          delKey (if (getKey s2 "webhooks").isNone then setKey s2 "webhooks" webhooks else s2)
            "x-webhooks"
      | none => s2
    .ok (setKey s3 "openapi" (.str "3.1.0"))
  else if strStartsWith rawVersion "3.1" then
    let s1 := convertSchemas31To30Obj spec
    let s2 := delKey s1 "jsonSchemaDialect"
    let s3 :=
      match getKey s2 "webhooks" with
      | some webhooks =>
          delKey (if (getKey s2 "x-webhooks").isNone then setKey s2 "x-webhooks" webhooks else s2)
            "webhooks"
      | none => s2
    .ok (setKey s3 "openapi" (.str "3.0.3"))
  else .error .unsupportedVersion

/-- Whether a decoded value is a scalar (not an object and not an array). -/
def GoVal.isScalar : GoVal → Bool
  | .arr _ => false
  | .obj _ => false
  | _ => true

/-- The 3.0 → 3.1 → 3.0 dialect round trip on a decoded document.  (The
root-level `openapi` / `jsonSchemaDialect` / webhook rewrites of
`ConvertVersion` do not touch `nullable` or `type` on any node.) -/
def roundTrip (v : GoVal) : GoVal :=
  convertSchemas31To30 (convertSchemas30To31 v)

/-- Every key of the first object is present in the second. -/
def keysIn : List (String × GoVal) → List (String × GoVal) → Bool
  | [], _ => true
  | (k, _) :: rest, a => (getKey a k).isSome && keysIn rest a

mutual

/-- Structural equality of decoded JSON values, treating objects as
unordered key → value maps (Go maps carry no order). -/
def eqv : GoVal → GoVal → Bool
  | .null, .null => true
  | .bool a, .bool b => a == b
  | .num a, .num b => a == b
  | .str a, .str b => a == b
  | .arr a, .arr b => eqvList a b
  | .obj a, .obj b => subMap a b && keysIn b a
  | _, _ => false
termination_by structural a _ => a

/-- Pointwise `eqv` on element lists. -/
def eqvList : List GoVal → List GoVal → Bool
  | [], [] => true
  | a :: rest, b :: bs => eqv a b && eqvList rest bs
  | _, _ => false
termination_by structural l _ => l

/-- Every entry of the first object `eqv`-matches the lookup of its key in
the second. -/
def subMap : List (String × GoVal) → List (String × GoVal) → Bool
  | [], _ => true
  | (k, v) :: rest, b =>
      (match getKey b k with
       | some w => eqv v w
       | none => false) && subMap rest b
termination_by structural l _ => l

end

/-- Object keys are pairwise distinct (decoded Go maps always are). -/
def nodupKeys : List (String × GoVal) → Bool
  | [] => true
  | (k, _) :: rest => (getKey rest k).isNone && nodupKeys rest

/-- Whether a decoded value is an array. -/
def GoVal.isArr : GoVal → Bool
  | .arr _ => true
  | _ => false

/-- The `type`-field restriction of the amended round-trip claim. -/
def typeOK (fields : List (String × GoVal)) : Bool :=
  (match getKey fields "type" with
   | some (.arr _) => false
   | _ => true)
  && (match getKey fields "nullable" with
      | some (.bool true) =>
          (match getKey fields "type" with
           | none => true
           | some (.str s) => !(s == "") && !(s == "null")
           | _ => false)
      | _ => true)

/-- The `enum`-field restriction of the amended round-trip claim. -/
def enumOK (fields : List (String × GoVal)) : Bool :=
  match getKey fields "enum" with
  | some (.arr vs) => !(vs.any GoVal.isNull) && !(vs.isEmpty)
  | _ => true

mutual

/-- The input class of the amended dialect round-trip claim: object keys are
unique, no `const` field, no array-valued (or `null`-valued) `type` field,
every array-valued `enum` is non-empty and free of `null` entries, and every
node carrying `nullable: true` has `type` either absent or a non-empty
string other than `"null"`. -/
def safe : GoVal → Bool
  | .obj fields =>
      safeFields fields && nodupKeys fields && (getKey fields "const").isNone
        && typeOK fields && enumOK fields
  | .arr items => safeList items
  | _ => true
termination_by structural v => v

/-- `safe` on every value of an object. -/
def safeFields : List (String × GoVal) → Bool
  | [] => true
  | (_, v) :: rest => safe v && safeFields rest
termination_by structural l => l

/-- `safe` on every item of an array. -/
def safeList : List GoVal → Bool
  | [] => true
  | v :: rest => safe v && safeList rest
termination_by structural l => l

end

/-- Correspondence between an option-valued lookup in the round-tripped
object and in the original object. -/
def optEqv : Option GoVal → Option GoVal → Prop
  | none, none => True
  | some v, some w => eqv v w = true
  | _, _ => False

end VersionService

/-- Replace every occurrence of the character `c` by `rep`
(JS `String.prototype.replace` with a global single-character pattern). -/
def replaceChar (c : Char) (rep : List Char) : List Char → List Char
  | [] => []
  | x :: xs => if x == c then rep ++ replaceChar c rep xs else x :: replaceChar c rep xs

/-- Replace every occurrence of the two-character pattern `a b` by `rep`
(JS `String.prototype.replace` with a global two-character pattern). -/
def replacePair (a b : Char) (rep : List Char) : List Char → List Char
  | [] => []
  | [x] => [x]
  | x :: y :: rest =>
      if x == a && y == b then rep ++ replacePair a b rep rest
      else x :: replacePair a b rep (y :: rest)

/-- Split on a separator character (JS `String.prototype.split`). -/
def splitOnChar (c : Char) : List Char → List (List Char)
  | [] => [[]]
  | x :: xs =>
      let rest := splitOnChar c xs
      if x == c then [] :: rest
      else
        match rest with
        | [] => [[x]]
        | r :: rs => (x :: r) :: rs

namespace Decycler

/-- A path segment as pushed by `visit` in `decycleDocument`: object keys
are strings, array indices are numbers.  The distinction matters because
`findComponentPointer` tests `typeof path[i] === "string"`. -/
inductive Seg where
  | key (s : String)
  | idx (n : Nat)

/-- JS `String(part)` on a path segment. -/
def Seg.toStr : Seg → String
  | .key s => s
  | .idx n => Nat.repr n

/-- A JS value in the input document graph: objects and arrays live in a
heap and are referred to by address (JS reference semantics, so identity
cycles and sharing are expressible); scalars are immediate. -/
inductive JVal where
  | addr (a : Nat)
  | str (s : String)
  | num (n : Int)
  | bool (b : Bool)
  | null

/-- A heap node: a mapping (field order = JS insertion order) or a sequence. -/
inductive HNode where
  | obj (fields : List (String × JVal))
  | arr (elems : List JVal)

/-- The input object graph of `decycleDocument`. -/
abbrev Heap := List (Nat × HNode)

/-- Heap lookup by address. -/
def heapFind : Heap → Nat → Option HNode
  | [], _ => none
  | (a, node) :: rest, b => if a = b then some node else heapFind rest b

/-- The addresses allocated in a heap. -/
def heapAddrs (h : Heap) : List Nat := h.map Prod.fst

/-- An upper bound on the heap's addresses. -/
def maxAddr (h : Heap) : Nat := (heapAddrs h).foldr Nat.max 0

/-- Output values of `decycleDocument`.  Every mapping/sequence that the
JavaScript code allocates carries a fresh identity tag `id`, so claims
about object identity in the output are expressible; scalars have no
identity in JS. -/
inductive OVal where
  | obj (id : Nat) (fields : List (String × OVal))
  | arr (id : Nat) (elems : List OVal)
  | str (s : String)
  | num (n : Int)
  | bool (b : Bool)
  | null

/-- A `visit` result: an ordinary value, or a cycle marker — the JS object
`\x7b __circularRef, __bubble \x7d`, modelled as its own constructor.  The JS
detects a marker by the truthiness of its `__circularRef` property, so the
constructor tagging is faithful for inputs whose mappings never use that
literal key (`heapNoMarkerKeys` below — checked for every concrete heap
the theorems evaluate). -/
inductive VRes where
  | out (v : OVal)
  | marker (ref : String) (bubble : Bool)

/-- Traversal state of `decycleDocument`: the input heap (threaded so that
the no-mutation claim is expressible — `visit` only ever reads it), the
`pointers` and `componentPointers` WeakMaps keyed by node address, and the
allocator counter for fresh output identities (seeded above every input
address). -/
structure DSt where
  heap : Heap
  ptrs : List (Nat × String)
  cptrs : List (Nat × String)
  ctr : Nat

/-- Lookup in an address-keyed map (JS `WeakMap.get`). -/
def lookupA : List (Nat × String) → Nat → Option String
  | [], _ => none
  | (a, s) :: rest, b => if a = b then some s else lookupA rest b

/-- Update in an address-keyed map (JS `WeakMap.set`). -/
def setA : List (Nat × String) → Nat → String → List (Nat × String)
  | [], b, s => [(b, s)]
  | (a, t) :: rest, b, s => if a = b then (a, s) :: rest else (a, t) :: setA rest b s

/-- Allocate a fresh output identity (a JS `\x7b\x7d` / `[]` allocation). -/
def alloca (σ : DSt) : Nat × DSt := (σ.ctr, { σ with ctr := σ.ctr + 1 })

/-- `escapeJsonPointer` from `OasBundleService.js`: `~` → `~0`, then `/` → `~1`. -/
def escapeJsonPointer (s : String) : String :=
  ⟨replaceChar '/' ['~', '1'] (replaceChar '~' ['~', '0'] s.data)⟩

/-- Join strings with a separator (JS `Array.prototype.join`). -/
def strJoin (sep : String) : List String → String
  | [] => ""
  | [x] => x
  | x :: xs => x ++ sep ++ strJoin sep xs

/-- `buildJsonPointer` from `OasBundleService.js`: `"#/"` on an empty path,
else `#/` followed by the escaped, stringified segments joined with `/`. -/
def buildJsonPointer (path : List Seg) : String :=
  if path.isEmpty then "#/"
  else "#/" ++ strJoin "/" (path.map fun part => escapeJsonPointer part.toStr)

/-- `findComponentPointer` from `OasBundleService.js`: scan the path for the
first `components/<kind>/<name>` (two following string segments) or
`definitions/<name>` (one following string segment) occurrence. -/
def findComponentPointer : List Seg → Option String
  | [] => none
  | seg :: rest =>
      match seg, rest with
      | .key "components", .key k1 :: .key k2 :: _ =>
          some ("#/components/" ++ escapeJsonPointer k1 ++ "/" ++ escapeJsonPointer k2)
      | .key "definitions", .key k1 :: _ =>
          some ("#/definitions/" ++ escapeJsonPointer k1)
      | _, _ => findComponentPointer rest

/-- The JS `bubbleKeys = new Set(["properties"])` membership test. -/
def bubbleKeysHas (k : String) : Bool := k == "properties"

/-- The pointer a cycle marker carries:
`componentPointers.get(node) || pointers.get(node) || buildJsonPointer(path)`
(all stored pointers start with `#/`, so JS string truthiness coincides with
presence). -/
def markerPointer (σ : DSt) (a : Nat) (path : List Seg) : String :=
  match lookupA σ.cptrs a with
  | some cp => cp
  | none =>
      match lookupA σ.ptrs a with
      | some p => p
      | none => buildJsonPointer path

/-- Whether a `visit` result is a bubbling cycle marker
(JS `entry && entry.__circularRef && entry.__bubble`). -/
def isBubbleMarker : VRes → Bool
  | .marker _ true => true
  | _ => false

/-- The second `map` over an array copy: each cycle marker becomes a fresh
`\x7b "$ref": … \x7d` object, other entries are kept. -/
def wrapMarkers : List VRes → DSt → (List OVal × DSt)
  | [], σ => ([], σ)
  | .out v :: rest, σ =>
      let (os, σ') := wrapMarkers rest σ
      (v :: os, σ')
  | .marker ref _ :: rest, σ =>
      let (id, σ₁) := alloca σ
      let (os, σ₂) := wrapMarkers rest σ₁
      ((.obj id [("$ref", .str ref)]) :: os, σ₂)

/-- The tail of the mapping branch of `visit`: if a bubbling marker was
recorded among the children, the entire copy is discarded for a fresh
`\x7b "$ref": … \x7d`; otherwise the assembled copy is returned. -/
def objResult (id : Nat) (copy : List (String × OVal)) (bub : Option String) (σ : DSt) :
    VRes × DSt :=
  match bub with
  | some ref =>
      let (rid, σ') := alloca σ
      (.out (.obj rid [("$ref", .str ref)]), σ')
  | none => (.out (.obj id copy), σ)

/-- The per-element loop of the sequence branch of `visit`
(`node.map((item, index) => visit(item, [...path, index], index.toString()))`),
parameterised over the child visitor. -/
def visitElems (vc : JVal → List Seg → String → DSt → Option (VRes × DSt)) :
    List JVal → List Seg → Nat → DSt → Option (List VRes × DSt)
  | [], _, _, σ => some ([], σ)
  | item :: rest, path, index, σ =>
      match vc item (path ++ [.idx index]) (Seg.toStr (.idx index)) σ with
      | none => none
      | some (r, σ') =>
          match visitElems vc rest path (index + 1) σ' with
          | none => none
          | some (rs, σ'') => some (r :: rs, σ'')

/-- The `Object.entries(node).forEach` loop of the mapping branch of
`visit`, parameterised over the child visitor: builds the copy, installing
`\x7b "$ref": … \x7d` for non-bubbling markers in place and recording the
last bubbling marker's pointer (later `bubbleRef =` assignments overwrite
earlier ones). -/
def visitFields (vc : JVal → List Seg → String → DSt → Option (VRes × DSt)) :
    List (String × JVal) → List Seg → DSt →
      Option (List (String × OVal) × Option String × DSt)
  | [], _, σ => some ([], none, σ)
  | (key, child) :: rest, path, σ =>
      match vc child (path ++ [.key key]) key σ with
      | none => none
      | some (.out v, σ') =>
          match visitFields vc rest path σ' with
          | none => none
          | some (copy, bub, σ'') => some ((key, v) :: copy, bub, σ'')
      | some (.marker ref false, σ') =>
          let (id, σ₁) := alloca σ'
          match visitFields vc rest path σ₁ with
          | none => none
          | some (copy, bub, σ'') =>
              some ((key, .obj id [("$ref", .str ref)]) :: copy, bub, σ'')
      | some (.marker ref true, σ') =>
          match visitFields vc rest path σ' with
          | none => none
          | some (copy, bub, σ'') =>
              some (copy,
                (match bub with
                 | some b => some b
                 | none => some ref), σ'')

/-- The pointer bookkeeping performed by `visit` before descending: record
the node's first-seen pointer (`pointers.set(node, pointer)` — re-setting
the same value when one exists) and, when a component pointer is known or
found along the current path, record it in `componentPointers`. -/
def recordPointers (σ : DSt) (a : Nat) (path : List Seg) : DSt :=
  let pointer := (lookupA σ.ptrs a).getD (buildJsonPointer path)
  let cptrs1 :=
    match lookupA σ.cptrs a with
    | some _ => σ.cptrs
    | none =>
        match findComponentPointer path with
        | some cp => setA σ.cptrs a cp
        | none => σ.cptrs
  { σ with ptrs := setA σ.ptrs a pointer, cptrs := cptrs1 }

/-- `visit` from `decycleDocument` in `OasBundleService.js`, over the heap
model.  `fuel` bounds the recursion depth (the code's own bound is the
number of live ancestors, proved sufficient below); the stack parameter
models the `WeakSet` (`stack.add` before the children, `stack.delete`
after — equivalently, children run with the node consed on).  Scalars pass
through; a node on the stack yields a cycle marker; otherwise the node's
first-seen and component pointers are recorded and the children rebuilt
into freshly allocated copies. -/
def visit : Nat → JVal → List Seg → String → List Nat → DSt → Option (VRes × DSt)
  | 0, _, _, _, _, _ => none
  | fuel + 1, v, path, parentKey, stack, σ =>
      match v with
      | .str s => some (.out (.str s), σ)
      | .num n => some (.out (.num n), σ)
      | .bool b => some (.out (.bool b), σ)
      | .null => some (.out .null, σ)
      | .addr a =>
          if stack.contains a then
            some (.marker (markerPointer σ a path) (bubbleKeysHas parentKey), σ)
          else
            let σ₂ := recordPointers σ a path
            match heapFind σ₂.heap a with
            | none => some (.out .null, σ₂)
            | some (.arr elems) =>
                let (id, σ₃) := alloca σ₂
                match visitElems (fun child p pk σ => visit fuel child p pk (a :: stack) σ)
                    elems path 0 σ₃ with
                | none => none
                | some (results, σ₄) =>
                    match results.find? isBubbleMarker with
                    | some (.marker ref _) =>
                        let (rid, σ₅) := alloca σ₄
                        some (.out (.obj rid [("$ref", .str ref)]), σ₅)
                    | _ =>
                        let (outs, σ₅) := wrapMarkers results σ₄
                        some (.out (.arr id outs), σ₅)
            | some (.obj fields) =>
                let (id, σ₃) := alloca σ₂
                match visitFields (fun child p pk σ => visit fuel child p pk (a :: stack) σ)
                    fields path σ₃ with
                | none => none
                | some (copy, bub, σ₄) => some (objResult id copy bub σ₄)

/-- The initial traversal state: empty `WeakMap`s, allocator seeded above
every input address. -/
def initSt (h : Heap) : DSt := { heap := h, ptrs := [], cptrs := [], ctr := maxAddr h + 1 }

/-- `decycleDocument`, with the final state exposed.  The root call starts
with the empty visiting set, so it can never yield a cycle marker (that
branch is dead and mapped to `none`). -/
def decycleDocumentFull (h : Heap) (value : JVal) : Option (OVal × DSt) :=
  match visit (h.length + 1) value [] "" [] (initSt h) with
  | some (.out v, σ) => some (v, σ)
  | _ => none

/-- `decycleDocument (value)` from `OasBundleService.js` over the heap model. -/
def decycleDocument (h : Heap) (value : JVal) : Option OVal :=
  (decycleDocumentFull h value).map Prod.fst

mutual

/-- The identity tags occurring in an output value, in preorder. -/
def idsOf : OVal → List Nat
  | .obj id fields => id :: idsOfFields fields
  | .arr id elems => id :: idsOfList elems
  | _ => []
termination_by structural v => v

/-- `idsOf` over an object's fields. -/
def idsOfFields : List (String × OVal) → List Nat
  | [] => []
  | (_, v) :: rest => idsOf v ++ idsOfFields rest
termination_by structural l => l

/-- `idsOf` over an array's elements. -/
def idsOfList : List OVal → List Nat
  | [] => []
  | v :: rest => idsOf v ++ idsOfList rest
termination_by structural l => l

end

/-- The identity tags in a `visit` result (markers carry none). -/
def idsOfRes : VRes → List Nat
  | .out v => idsOf v
  | .marker _ _ => []

mutual

/-- All `$ref` strings occurring in an output value: the value of every
`"$ref"` field whose value is a string, collected in preorder. -/
def refsOf : OVal → List String
  | .obj _ fields => refsOfFields fields
  | .arr _ elems => refsOfList elems
  | _ => []
termination_by structural v => v

/-- `refsOf` over an object's fields. -/
def refsOfFields : List (String × OVal) → List String
  | [] => []
  | (k, v) :: rest =>
      (if k == "$ref" then
        match v with
        | .str r => [r]
        | _ => []
      else []) ++ refsOf v ++ refsOfFields rest
termination_by structural l => l

/-- `refsOf` over an array's elements. -/
def refsOfList : List OVal → List String
  | [] => []
  | v :: rest => refsOf v ++ refsOfList rest
termination_by structural l => l

end

/-- Whether no mapping in the heap uses the literal key `"$ref"` (so every
`$ref` in the output was introduced by the Decycler itself). -/
def heapNoRefKeys (h : Heap) : Bool :=
  h.all fun p =>
    match p.2 with
    | .obj fields => fields.all fun q => !(q.1 == "$ref")
    | .arr _ => true

/-- Modelled from the spec: RFC 6901 unescaping of one reference token,
`~1` → `/` then `~0` → `~`, as the spec's round-trip-resolvability criterion
prescribes for evaluating a `$ref` against the output document. -/
def unescapeToken (s : String) : String :=
  ⟨replacePair '~' '0' ['~'] (replacePair '~' '1' ['/'] s.data)⟩

/-- Modelled from the spec: an RFC 6901 array-index token — `0`, or a
non-empty digit string without a leading zero. -/
def parseArrayIndex (s : String) : Option Nat :=
  match s.data with
  | [] => none
  | ['0'] => some 0
  | c :: cs =>
      if c == '0' then none
      else if (c :: cs).all (fun d => d.isDigit) then
        some ((c :: cs).foldl (fun acc d => acc * 10 + (d.toNat - '0'.toNat)) 0)
      else none

/-- Modelled from the spec: RFC 6901 evaluation of a token list against an
output document. -/
def resolveTokens : OVal → List String → Option OVal
  | doc, [] => some doc
  | .obj _ fields, t :: ts =>
      match fields.find? (fun p => p.1 == t) with
      | some p => resolveTokens p.2 ts
      | none => none
  | .arr _ elems, t :: ts =>
      match parseArrayIndex t with
      | some i =>
          match elems.get? i with
          | some e => resolveTokens e ts
          | none => none
      | none => none
  | _, _ :: _ => none

/-- Modelled from the spec: evaluation of a same-document `#`-fragment
`$ref` (an RFC 6901 JSON Pointer) against the output document — the
criterion of the spec's round-trip-resolvability guarantee. -/
def resolveJsonRef (doc : OVal) (ref : String) : Option OVal :=
  match ref.data with
  | '#' :: rest =>
      match rest with
      | [] => some doc
      | '/' :: body =>
          resolveTokens doc ((splitOnChar '/' body).map fun t => unescapeToken ⟨t⟩)
      | _ => none
  | _ => none

/-- The ids collected from a list of `visit` results. -/
def idsOfResList : List VRes → List Nat
  | [] => []
  | r :: rs => idsOfRes r ++ idsOfResList rs

/-- The allocation-span invariant of one traversal step: the heap is
untouched, the allocator only grows, and the ids produced lie inside the
step's allocator span, pairwise distinct. -/
def SpanOK (σ σ' : DSt) (ids : List Nat) : Prop :=
  σ'.heap = σ.heap ∧ σ.ctr ≤ σ'.ctr
    ∧ (∀ i ∈ ids, σ.ctr ≤ i ∧ i < σ'.ctr) ∧ ids.Nodup

/-- The number of heap addresses not yet on the visiting stack: the measure
by which the visiting set bounds the recursion depth. -/
def remaining (h : Heap) (stack : List Nat) : Nat :=
  ((heapAddrs h).toFinset \ stack.toFinset).card

/-- A four-node heap with a cycle through a "properties" edge: node 0 holds
node 1 under "a" and node 3 under "b"; node 1 holds node 0 under
"properties" (forcing a bubbled replacement) and the self-looping node 2
under "p"; node 3 reaches node 2 under "e". -/
def exHeapC1 : Heap :=
  [(0, .obj [("a", .addr 1), ("b", .addr 3)]),
   (1, .obj [("properties", .addr 0), ("p", .addr 2)]),
   (2, .obj [("d", .addr 2)]),
   (3, .obj [("e", .addr 2)])]

/-- A demonstration state for the C4 witness: the first-seen pointer of
address 5 is recorded, no component pointer is. -/
def σC4 : DSt := { heap := [], ptrs := [(5, "#/first")], cptrs := [], ctr := 9 }

/-- A demonstration state for the C4 witness with a component pointer
recorded for address 5. -/
def σC4b : DSt := { heap := [], ptrs := [(5, "#/first")], cptrs := [(5, "#/comp")], ctr := 9 }

/-- A demonstration state for the C4 witness with no pointers recorded. -/
def σC4c : DSt := { heap := [], ptrs := [], cptrs := [], ctr := 9 }

/-- Whether no mapping in the heap uses the literal key `"__circularRef"`.
The JS recognises cycle markers by the truthiness of a `__circularRef`
property, while the model tags markers with a dedicated constructor; on a
heap satisfying this check no ordinary mapping can be mistaken for a
marker, so the model and the JS coincide. -/
def heapNoMarkerKeys (h : Heap) : Bool :=
  h.all fun p =>
    match p.2 with
    | .obj fields => fields.all fun q => !(q.1 == "__circularRef")
    | .arr _ => true

/-- The spec's `Node` scenario as a heap: a document whose
`components.schemas.Node` schema holds `properties.children` cycling back
to the `Node` schema itself (node 3). -/
def exHeapNode : Heap :=
  [(0, .obj [("openapi", .str "3.1.0"), ("components", .addr 1)]),
   (1, .obj [("schemas", .addr 2)]),
   (2, .obj [("Node", .addr 3)]),
   (3, .obj [("type", .str "object"), ("properties", .addr 4)]),
   (4, .obj [("children", .addr 3)])]

/-- The decycled copy of the `Node` schema: the cycle at
`properties.children` is broken by the component-pointer `$ref`. -/
def exNodeSchemaOut : OVal :=
  .obj 8 [("type", .str "object"),
    ("properties", .obj 9 [("children",
      .obj 10 [("$ref", .str "#/components/schemas/Node")])])]

/-- The decycled `Node` document. -/
def exNodeOut : OVal :=
  .obj 5 [("openapi", .str "3.1.0"),
    ("components", .obj 6 [("schemas", .obj 7 [("Node", exNodeSchemaOut)])])]

/-- A document holding a self-referential mapping under "root": node 1
cycles back to itself under "self". -/
def exHeapSelf : Heap :=
  [(0, .obj [("root", .addr 1)]), (1, .obj [("name", .str "n"), ("self", .addr 1)])]

/-- The decycled copy of the self-referential mapping, built at its
first-seen pointer `"#/root"`. -/
def exSelfRootOut : OVal :=
  .obj 3 [("name", .str "n"), ("self", .obj 4 [("$ref", .str "#/root")])]

/-- The decycled self-reference document: the cycle is broken by a ref to
the mapping's first-seen pointer `"#/root"`. -/
def exSelfOut : OVal := .obj 2 [("root", exSelfRootOut)]

/-- A shared cyclic subtree: the self-looping node 1 sits under both "x"
and "y" of the root. -/
def exHeapShared : Heap :=
  [(0, .obj [("x", .addr 1), ("y", .addr 1)]), (1, .obj [("loop", .addr 1)])]

/-- The full copy of the shared node built at its first-seen location
`"#/x"`, to which both emitted refs point. -/
def exSharedXOut : OVal := .obj 3 [("loop", .obj 4 [("$ref", .str "#/x")])]

/-- The decycled shared-subtree document: both occurrences of node 1 are
copied, and both cycle refs carry the first-seen pointer `"#/x"`. -/
def exSharedOut : OVal :=
  .obj 2 [("x", exSharedXOut), ("y", .obj 5 [("loop", .obj 6 [("$ref", .str "#/x")])])]

end Decycler

namespace Resolver

/-- YAML/JSON values for the Reference Resolver of `OasDereferenceService.js`,
as a pure tree (the claims below concern the merge policy and the fetch
discipline, not object identity). -/
inductive Node where
  | str : String → Node
  | num : Int → Node
  | bool : Bool → Node
  | null : Node
  | arr : List Node → Node
  | obj : List (String × Node) → Node

/-- Property access / `Map.get` over insertion-ordered entries. -/
def lookupD : List (String × Node) → String → Option Node
  | [], _ => none
  | (k, v) :: rest, key => if k == key then some v else lookupD rest key

/-- JS property assignment / `Map.set`: an existing key keeps its insertion
position and gets the new value, a new key is appended at the end. -/
def setD : List (String × Node) → String → Node → List (String × Node)
  | [], key, nv => [(key, nv)]
  | (k, w) :: rest, key, nv =>
      if k == key then (k, nv) :: rest else (k, w) :: setD rest key nv

/-- `delete node[key]`. -/
def delEntry : List (String × Node) → String → List (String × Node)
  | [], _ => []
  | (k, w) :: rest, key => if k == key then rest else (k, w) :: delEntry rest key

/-- The ref-target merge of `resolveNode`:
`Object.entries(resolved).forEach(([key, value]) => node[key] = value)` —
each entry of the resolved target is assigned into the current node in
order, overwriting a sibling key that collides. -/
def mergeEntries (node entries : List (String × Node)) : List (String × Node) :=
  entries.foldl (fun acc q => setD acc q.1 q.2) node

/-- Whether an entry list carries pairwise distinct keys (always true of
entry lists read off a JS object). -/
def nodupKeysN : List (String × Node) → Bool
  | [] => true
  | (k, _) :: rest => (!(rest.any fun q => q.1 == k)) && nodupKeysN rest

mutual

/-- `normalizeYaml`: rebuild arrays and objects recursively (keys are
already strings in the model, so the `String(key)` coercion is the
identity); scalars pass through. -/
def normalizeYaml : Node → Node
  | .arr items => .arr (normalizeYamlList items)
  | .obj fields => .obj (normalizeYamlFields fields)
  | .str s => .str s
  | .num n => .num n
  | .bool b => .bool b
  | .null => .null
termination_by structural n => n

/-- `normalizeYaml` over an array's items. -/
def normalizeYamlList : List Node → List Node
  | [] => []
  | x :: rest => normalizeYaml x :: normalizeYamlList rest
termination_by structural l => l

/-- `normalizeYaml` over an object's entries. -/
def normalizeYamlFields : List (String × Node) → List (String × Node)
  | [] => []
  | (k, v) :: rest => (k, normalizeYaml v) :: normalizeYamlFields rest
termination_by structural l => l

end

mutual

/-- `deepCopy`: rebuild arrays and objects recursively, scalars pass
through (a fresh structure in JS; structurally the identity on the pure
tree model). -/
def deepCopy : Node → Node
  | .arr items => .arr (deepCopyList items)
  | .obj fields => .obj (deepCopyFields fields)
  | .str s => .str s
  | .num n => .num n
  | .bool b => .bool b
  | .null => .null
termination_by structural n => n

/-- `deepCopy` over an array's items. -/
def deepCopyList : List Node → List Node
  | [] => []
  | x :: rest => deepCopy x :: deepCopyList rest
termination_by structural l => l

/-- `deepCopy` over an object's entries. -/
def deepCopyFields : List (String × Node) → List (String × Node)
  | [] => []
  | (k, v) :: rest => (k, deepCopy v) :: deepCopyFields rest
termination_by structural l => l

end

/-- RFC 6901 unescaping of one pointer segment as `jsonPointerLookup`
performs it: `~1` → `/` first, then `~0` → `~`. -/
def unescapeSeg (cs : List Char) : String :=
  ⟨replacePair '~' '0' ['~'] (replacePair '~' '1' ['/'] cs)⟩

/-- The digit-prefix part of `Number.parseInt`: the value of the leading
digit run, `none` when there is none. -/
def jsParseDigits (cs : List Char) : Option Nat :=
  let digits := cs.takeWhile Char.isDigit
  if digits.isEmpty then none
  else some (digits.foldl (fun acc d => acc * 10 + (d.toNat - '0'.toNat)) 0)

/-- `Number.parseInt(key, 10)`: skip leading whitespace, read an optional
sign and the leading digit run; `none` models `NaN`. -/
def jsParseInt (s : String) : Option Int :=
  let cs := s.data.dropWhile fun c => c == ' ' || c == '\t' || c == '\n' || c == '\r'
  match cs with
  | '-' :: rest => (jsParseDigits rest).map fun n => -(n : Int)
  | '+' :: rest => (jsParseDigits rest).map fun n => (n : Int)
  | _ => (jsParseDigits cs).map fun n => (n : Int)

/-- The segment loop of `jsonPointerLookup`: empty segments are skipped,
array steps parse the segment as an index and bound-check it, object steps
require the key to be present, scalars fail; `none` models the thrown
lookup errors. -/
def jsonPointerGo : Node → List (List Char) → Option Node
  | cur, [] => some cur
  | cur, seg :: rest =>
      if seg.isEmpty then jsonPointerGo cur rest
      else
        let key := unescapeSeg seg
        match cur with
        | .arr items =>
            match jsParseInt key with
            | none => none
            | some i =>
                if i < 0 then none
                else
                  match items.get? i.toNat with
                  | some e => jsonPointerGo e rest
                  | none => none
        | .obj fields =>
            match lookupD fields key with
            | some v => jsonPointerGo v rest
            | none => none
        | _ => none
termination_by structural cur segs => segs

/-- `jsonPointerLookup(doc, pointer)`: the empty pointer is the document
itself, otherwise the pointer is split on `/` and walked. -/
def jsonPointerLookup (doc : Node) (pointer : String) : Option Node :=
  if pointer == "" then some doc
  else jsonPointerGo doc (splitOnChar '/' pointer.data)

/-- The canonical key of the root document in the Document Store. -/
def ROOT_KEY : String := "__root__"

/-- The resolver's collaborators: `new URL(ref, base)` — returning the
absolute href with its hash stripped and the hash fragment, `none` on a
parse error —, the Fetcher, and `jsYaml.load` (`none` models a throw). -/
structure RCtx where
  urlResolve : String → Option String → Option (String × String)
  fetchFn : String → Option String
  parseFn : String → Option Node

/-- The resolver's state: the Document Store, the `resolving` set, and the
log of Fetcher invocations (one entry per call, in order). -/
structure RSt where
  docs : List (String × Node)
  resolving : List String
  fetchLog : List String

mutual

/-- `RefResolver.resolveNode` over the model, fuel-indexed (the JS can
recurse unboundedly on self-referential documents; fuel exhaustion is an
error).  Arrays resolve elementwise; a mapping with a string `$ref` whose
trim is non-empty resolves the ref, deletes `$ref`, and applies the merge
policy; every other value walks its entries. -/
def resolveNode (C : RCtx) : Nat → Node → String → Option String → RSt →
    Except String Node × RSt
  | 0, _, _, _, σ => (.error "fuel", σ)
  | fuel + 1, node, docKey, baseUrl, σ =>
      match node with
      | .arr items =>
          match resolveList C fuel items docKey baseUrl σ with
          | (.ok items1, σ1) => (.ok (.arr items1), σ1)
          | (.error e, σ1) => (.error e, σ1)
      | .obj fields =>
          match lookupD fields "$ref" with
          | some (.str r) =>
              if trimSpace r == "" then
                match resolveFields C fuel fields docKey baseUrl σ with
                | (.ok fields1, σ1) => (.ok (.obj fields1), σ1)
                | (.error e, σ1) => (.error e, σ1)
              else
                match resolveRef C fuel (trimSpace r) docKey baseUrl σ with
                | (.error e, σ1) => (.error e, σ1)
                | (.ok (resolved, targetKey, targetBase), σ1) =>
                    let node1 := delEntry fields "$ref"
                    match resolved with
                    | .obj entries =>
                        resolveNode C fuel (.obj (mergeEntries node1 entries))
                          targetKey targetBase σ1
                    | _ =>
                        if node1.isEmpty then (.ok resolved, σ1)
                        else
                          resolveNode C fuel (.obj (setD node1 "value" resolved))
                            targetKey targetBase σ1
          | _ =>
              match resolveFields C fuel fields docKey baseUrl σ with
              | (.ok fields1, σ1) => (.ok (.obj fields1), σ1)
              | (.error e, σ1) => (.error e, σ1)
      | .str s => (.ok (.str s), σ)
      | .num n => (.ok (.num n), σ)
      | .bool b => (.ok (.bool b), σ)
      | .null => (.ok .null, σ)

/-- The element loop of `resolveNode` on arrays. -/
def resolveList (C : RCtx) : Nat → List Node → String → Option String → RSt →
    Except String (List Node) × RSt
  | 0, _, _, _, σ => (.error "fuel", σ)
  | _ + 1, [], _, _, σ => (.ok [], σ)
  | fuel + 1, x :: rest, docKey, baseUrl, σ =>
      match resolveNode C fuel x docKey baseUrl σ with
      | (.error e, σ1) => (.error e, σ1)
      | (.ok x1, σ1) =>
          match resolveList C fuel rest docKey baseUrl σ1 with
          | (.error e, σ2) => (.error e, σ2)
          | (.ok rest1, σ2) => (.ok (x1 :: rest1), σ2)

/-- The `Object.entries` loop of `resolveNode` on ref-free mappings. -/
def resolveFields (C : RCtx) : Nat → List (String × Node) → String → Option String → RSt →
    Except String (List (String × Node)) × RSt
  | 0, _, _, _, σ => (.error "fuel", σ)
  | _ + 1, [], _, _, σ => (.ok [], σ)
  | fuel + 1, (k, v) :: rest, docKey, baseUrl, σ =>
      match resolveNode C fuel v docKey baseUrl σ with
      | (.error e, σ1) => (.error e, σ1)
      | (.ok v1, σ1) =>
          match resolveFields C fuel rest docKey baseUrl σ1 with
          | (.error e, σ2) => (.error e, σ2)
          | (.ok rest1, σ2) => (.ok ((k, v1) :: rest1), σ2)

/-- `RefResolver.resolveRef`: split the ref into fragment and target
(fragment-only refs stay in the current document; otherwise the ref is
resolved against the base URL and, when the resulting href is non-empty,
becomes the new target key and base), obtain the target document, evaluate
the fragment pointer, deep-copy the value and resolve the copy. -/
def resolveRef (C : RCtx) : Nat → String → String → Option String → RSt →
    Except String (Node × String × Option String) × RSt
  | 0, _, _, _, σ => (.error "fuel", σ)
  | fuel + 1, ref, docKey, baseUrl, σ =>
      let split : Except String (String × String × Option String × Option String) :=
        if strStartsWith ref "#" then .ok (ref, docKey, baseUrl, none)
        else
          match C.urlResolve ref baseUrl with
          | none => .error "Ongeldige $ref"
          | some (href, frag) =>
              if href == "" then .ok (frag, docKey, baseUrl, some href)
              else .ok (frag, href, some href, some href)
      match split with
      | .error e => (.error e, σ)
      | .ok (fragment, targetKey, targetBase, targetUrl) =>
          match getDocument C fuel targetKey targetUrl σ with
          | (.error e, σ1) => (.error e, σ1)
          | (.ok document, σ1) =>
              let value? :=
                if fragment == "" then some document
                else
                  jsonPointerLookup document
                    (if strStartsWith fragment "#" then ⟨fragment.data.drop 1⟩ else fragment)
              match value? with
              | none => (.error "Kon fragment niet vinden", σ1)
              | some value =>
                  match resolveNode C fuel (deepCopy value) targetKey targetBase σ1 with
                  | (.error e, σ2) => (.error e, σ2)
                  | (.ok resolved, σ2) => (.ok (resolved, targetKey, targetBase), σ2)

/-- `RefResolver.getDocument`: a Document Store hit returns the stored
document at once; without a usable URL resolution fails; otherwise the key
is marked as resolving, the Fetcher is invoked (logged), the contents
parsed and normalized, the document registered in the store BEFORE its
self-resolution, then self-resolved (the store keeping the resolved
result, as the JS mutates the registered object in place); the `resolving`
mark is removed on every exit as the JS `finally` does.  (The JS re-entry
check `resolving.has(key) && docs.has(key)` can never fire — a store hit
already returned — and has no model counterpart.) -/
def getDocument (C : RCtx) : Nat → String → Option String → RSt →
    Except String Node × RSt
  | 0, _, _, σ => (.error "fuel", σ)
  | fuel + 1, key, url, σ =>
      match lookupD σ.docs key with
      | some doc => (.ok doc, σ)
      | none =>
          match url with
          | none => (.error "Kan $ref niet oplossen zonder basis URL", σ)
          | some u =>
              if u == "" then (.error "Kan $ref niet oplossen zonder basis URL", σ)
              else
                let σ1 := { σ with resolving := σ.resolving ++ [key],
                                   fetchLog := σ.fetchLog ++ [u] }
                match C.fetchFn u with
                | none =>
                    (.error "fetch mislukt",
                      { σ1 with resolving := σ1.resolving.erase key })
                | some contents =>
                    match C.parseFn contents with
                    | none =>
                        (.error "Kon externe referentie niet parsen",
                          { σ1 with resolving := σ1.resolving.erase key })
                    | some parsed =>
                        match normalizeYaml parsed with
                        | .obj nfields =>
                            let normalized := Node.obj nfields
                            let σ2 := { σ1 with docs := setD σ1.docs key normalized }
                            match resolveNode C fuel normalized key (some u) σ2 with
                            | (.error e, σ3) =>
                                (.error e,
                                  { σ3 with resolving := σ3.resolving.erase key })
                            | (.ok resolved, σ3) =>
                                (.ok resolved,
                                  { σ3 with docs := setD σ3.docs key resolved,
                                            resolving := σ3.resolving.erase key })
                        | _ =>
                            (.error "Externe referentie bevat geen object",
                              { σ1 with resolving := σ1.resolving.erase key })

end

/-- The resolution core of `dereference`: a fresh resolver whose Document
Store holds the normalized input under `ROOT_KEY`, then
`resolveNode(normalized, ROOT_KEY, baseUrl)`. -/
def resolveDocument (C : RCtx) (fuel : Nat) (doc : Node) (baseUrl : Option String) :
    Except String Node × RSt :=
  resolveNode C fuel doc ROOT_KEY baseUrl
    { docs := [(ROOT_KEY, doc)], resolving := [], fetchLog := [] }

/-- A collaborator set with no reachable network: every URL parse, fetch
and parse fails (the documents of interest resolve entirely in-store). -/
def noNetCtx : RCtx :=
  { urlResolve := fun _ _ => none, fetchFn := fun _ => none, parseFn := fun _ => none }

/-- The C6 counterexample document: `d` maps `a` to 2; its sibling-carrying
referrer `n` holds the sibling `a: 1` next to `$ref: "#/d"`. -/
def exDocC6 : Node :=
  .obj [("d", .obj [("a", .num 2)]),
        ("n", .obj [("a", .num 1), ("$ref", .str "#/d")])]

/-- The resolver state holding the C6 example document under the root key,
used by the C6 witness. -/
def σC6 : RSt := { docs := [(ROOT_KEY, exDocC6)], resolving := [], fetchLog := [] }

/-- The fetch-discipline invariant: no URI was fetched twice, and every
fetched URI has a Document Store entry (registration precedes
self-resolution, so later refs to the URI hit the store). -/
def InvR (σ : RSt) : Prop :=
  σ.fetchLog.Nodup ∧ ∀ x ∈ σ.fetchLog, (lookupD σ.docs x).isSome = true

/-- What one resolver step guarantees: a successful step re-establishes the
invariant; a failing step (whose error aborts the whole run) still never
fetched a URI twice. -/
def PostR {α : Type} : Except String α × RSt → Prop
  | (.ok _, σ1) => InvR σ1
  | (.error _, σ1) => σ1.fetchLog.Nodup

end Resolver

namespace VersionService

theorem convertSchemas30To31_obj (fields : List (String × GoVal)) :
    convertSchemas30To31 (.obj fields) = .obj (convertSchemas30To31Obj fields) := by
  rw [convertSchemas30To31, convertSchemas30To31Obj]
  cases getKey (conv30Fields fields) "nullable" with
  | none => rfl
  | some v =>
      cases v with
      | bool b => cases b <;> rfl
      | null => rfl
      | num n => rfl
      | str s => rfl
      | arr l => rfl
      | obj f => rfl

theorem convertSchemas31To30_obj (fields : List (String × GoVal)) :
    convertSchemas31To30 (.obj fields) = .obj (convertSchemas31To30Obj fields) := by
  rw [convertSchemas31To30, convertSchemas31To30Obj]

theorem getKey_setKey_self (m : List (String × GoVal)) (k : String) (v : GoVal) :
    getKey (setKey m k v) k = some v := by
  induction m with
  | nil => simp [setKey, getKey]
  | cons hd tl ih =>
      obtain ⟨k', w⟩ := hd
      by_cases h : k' = k <;> simp [setKey, getKey, h, ih]

theorem getKey_setKey_ne (m : List (String × GoVal)) (k k' : String) (v : GoVal)
    (h : k ≠ k') : getKey (setKey m k' v) k = getKey m k := by
  induction m with
  | nil => simp [setKey, getKey, Ne.symm h]
  | cons hd tl ih =>
      obtain ⟨k'', w⟩ := hd
      by_cases h2 : k'' = k'
      · subst h2
        simp [setKey, getKey, Ne.symm h]
      · simp [setKey, getKey, h2, ih]

theorem getKey_delKey_self (m : List (String × GoVal)) (k : String) :
    getKey (delKey m k) k = none := by
  induction m with
  | nil => simp [delKey, getKey]
  | cons hd tl ih =>
      obtain ⟨k', w⟩ := hd
      by_cases h : k' = k <;> simp [delKey, getKey, h, ih]

theorem getKey_delKey_ne (m : List (String × GoVal)) (k k' : String) (h : k ≠ k') :
    getKey (delKey m k') k = getKey m k := by
  induction m with
  | nil => simp [delKey, getKey]
  | cons hd tl ih =>
      obtain ⟨k'', w⟩ := hd
      by_cases h2 : k'' = k'
      · subst h2
        simp [delKey, getKey, Ne.symm h, ih]
      · simp [delKey, getKey, h2, ih]

theorem getKey_conv30Fields (fields : List (String × GoVal)) (k : String) :
    getKey (conv30Fields fields) k = (getKey fields k).map convertSchemas30To31 := by
  induction fields with
  | nil => simp [conv30Fields, getKey]
  | cons hd tl ih =>
      obtain ⟨k', v⟩ := hd
      by_cases h : k' = k <;> simp [conv30Fields, getKey, h, ih]

theorem convertSchemas30To31_scalar (v : GoVal) (h : v.isScalar = true) :
    convertSchemas30To31 v = v := by
  cases v <;> simp_all [GoVal.isScalar, convertSchemas30To31]

theorem conv30List_scalars (ts : List GoVal) (h : ∀ t ∈ ts, t.isScalar = true) :
    conv30List ts = ts := by
  induction ts with
  | nil => simp [conv30List]
  | cons hd tl ih =>
      simp only [conv30List]
      rw [convertSchemas30To31_scalar hd (h hd (by simp)), ih fun t ht => h t (by simp [ht])]

/-- C2: on a document whose `openapi` field is absent, `ConvertVersion` does
not fail with `versionFieldMissing` as the claim (and the error's own doc
comment) states: `fmt.Sprint` renders the missing field as `"<nil>"`, which
is non-empty and lacks the `3.0`/`3.1` prefix, so the code falls through to
`unsupportedVersion`.  A present-but-blank field does produce
`versionFieldMissing`. -/
theorem convertVersion_missing_field_divergence :
    convertVersion [("info", .obj [("title", .str "demo")])] = .error .unsupportedVersion
    ∧ convertVersion [("openapi", .str " ")] = .error .versionFieldMissing := by
  constructor <;> rfl

/-- C7 counterexample: on `\x7b"type": "", "nullable": true\x7d` the 3.0 → 3.1
rewrite yields `type: ["null"]`, not the two-element array `["", "null"]`
that the claim's "if `type` is a string" case prescribes. -/
theorem conv30_emptyType_counterexample :
    convertSchemas30To31 (.obj [("type", .str ""), ("nullable", .bool true)])
      = .obj [("type", .arr [.str "null"])]
    ∧ convertSchemas30To31 (.obj [("type", .str ""), ("nullable", .bool true)])
      ≠ .obj [("type", .arr [.str "", .str "null"])] := by
  have h1 : convertSchemas30To31 (.obj [("type", .str ""), ("nullable", .bool true)])
      = .obj [("type", .arr [.str "null"])] := rfl
  refine ⟨h1, ?_⟩
  rw [h1]
  simp

/-- C7 (amended): in the 3.0 → 3.1 conversion, on a mapping node carrying
`nullable: true`: a non-empty string `type` becomes `[type, "null"]`; an
absent or empty-string `type` becomes `["null"]`; an array `type` lacking
`"null"` gets `"null"` appended; and `nullable` is deleted. -/
theorem conv30_nullable_rewrite (fields : List (String × GoVal))
    (hnul : getKey fields "nullable" = some (.bool true)) :
    getKey (convertSchemas30To31Obj fields) "nullable" = none
    ∧ (∀ s, s ≠ "" → getKey fields "type" = some (.str s) →
        getKey (convertSchemas30To31Obj fields) "type" = some (.arr [.str s, .str "null"]))
    ∧ (getKey fields "type" = none →
        getKey (convertSchemas30To31Obj fields) "type" = some (.arr [.str "null"]))
    ∧ (getKey fields "type" = some (.str "") →
        getKey (convertSchemas30To31Obj fields) "type" = some (.arr [.str "null"]))
    ∧ (∀ ts, getKey fields "type" = some (.arr ts) → ts.any isNullString = false →
        (∀ t ∈ ts, t.isScalar = true) →
        getKey (convertSchemas30To31Obj fields) "type" = some (.arr (ts ++ [.str "null"]))) := by
  have hf : getKey (conv30Fields fields) "nullable" = some (.bool true) := by
    rw [getKey_conv30Fields, hnul]; rfl
  have hobj : convertSchemas30To31Obj fields
      = delKey (mergeTypeWithNull (conv30Fields fields)) "nullable" := by
    rw [convertSchemas30To31Obj, hf]
  have htn : ("type" : String) ≠ "nullable" := by decide
  refine ⟨?_, ?_, ?_, ?_, ?_⟩
  · rw [hobj, getKey_delKey_self]
  · intro s hs ht
    have ht' : getKey (conv30Fields fields) "type" = some (.str s) := by
      rw [getKey_conv30Fields, ht]; rfl
    rw [hobj, getKey_delKey_ne _ _ _ htn, mergeTypeWithNull, ht']
    simp [hs, getKey_setKey_self]
  · intro ht
    have ht' : getKey (conv30Fields fields) "type" = none := by
      rw [getKey_conv30Fields, ht]; rfl
    rw [hobj, getKey_delKey_ne _ _ _ htn, mergeTypeWithNull, ht', getKey_setKey_self]
  · intro ht
    have ht' : getKey (conv30Fields fields) "type" = some (.str "") := by
      rw [getKey_conv30Fields, ht]; rfl
    rw [hobj, getKey_delKey_ne _ _ _ htn, mergeTypeWithNull, ht']
    simp [getKey_setKey_self]
  · intro ts ht hnonull hscal
    have ht' : getKey (conv30Fields fields) "type" = some (.arr ts) := by
      rw [getKey_conv30Fields, ht]
      simp [convertSchemas30To31, conv30List_scalars ts hscal]
    rw [hobj, getKey_delKey_ne _ _ _ htn, mergeTypeWithNull, ht']
    simp [hnonull, getKey_setKey_self]

theorem conv30_nullable_rewrite_witness :
    getKey (convertSchemas30To31Obj [("type", .str "string"), ("nullable", .bool true)]) "type"
      = some (.arr [.str "string", .str "null"])
    ∧ getKey (convertSchemas30To31Obj [("type", .str "string"), ("nullable", .bool true)])
        "nullable" = none := by
  have h := conv30_nullable_rewrite [("type", .str "string"), ("nullable", .bool true)] rfl
  exact ⟨h.2.1 "string" (by decide) rfl, h.1⟩

/-- C8: `normalizeEnumNull` on a node whose `enum` is an array strips the
`null` entries, sets `nullable: true` exactly when at least one was removed,
deletes `enum` when the remainder is empty, and leaves the node untouched
when `enum` was a non-empty array without `null`s.  In particular
`\x7b"enum": [1,2,null]\x7d` under 3.1 → 3.0 yields
`\x7b"enum": [1,2], "nullable": true\x7d`. -/
theorem normalizeEnumNull_spec (m : List (String × GoVal)) (values : List GoVal)
    (henum : getKey m "enum" = some (.arr values)) :
    (getKey (normalizeEnumNull m) "enum"
      = if (values.filter fun item => !(item.isNull)).isEmpty then none
        else some (.arr (values.filter fun item => !(item.isNull))))
    ∧ (getKey (normalizeEnumNull m) "nullable"
      = if values.any GoVal.isNull then some (.bool true) else getKey m "nullable")
    ∧ (values.any GoVal.isNull = false → values.isEmpty = false → normalizeEnumNull m = m)
    ∧ convertSchemas31To30 (.obj [("enum", .arr [.num 1, .num 2, .null])])
      = .obj [("enum", .arr [.num 1, .num 2]), ("nullable", .bool true)] := by
  have hne' : ("nullable" : String) ≠ "enum" := by decide
  have hunf : normalizeEnumNull m =
      (if (values.filter fun item => !(item.isNull)).isEmpty then
        delKey (if values.any GoVal.isNull then setKey m "nullable" (.bool true) else m) "enum"
       else if (values.filter fun item => !(item.isNull)).length ≠ values.length then
        setKey (if values.any GoVal.isNull then setKey m "nullable" (.bool true) else m) "enum"
          (.arr (values.filter fun item => !(item.isNull)))
       else (if values.any GoVal.isNull then setKey m "nullable" (.bool true) else m)) := by
    rw [normalizeEnumNull, henum]
  by_cases hnull : values.any GoVal.isNull = true
  · have hlen : (values.filter fun item => !(item.isNull)).length ≠ values.length := by
      obtain ⟨x, hx, hxn⟩ := List.any_eq_true.mp hnull
      have hlt : (values.filter fun item => !(item.isNull)).length < values.length :=
        List.length_filter_lt_length_iff_exists.mpr ⟨x, hx, by simp [hxn]⟩
      omega
    by_cases hemp : (values.filter fun item => !(item.isNull)).isEmpty = true
    · have hval : normalizeEnumNull m = delKey (setKey m "nullable" (.bool true)) "enum" := by
        rw [hunf, if_pos hemp, if_pos hnull]
      refine ⟨?_, ?_, ?_, rfl⟩
      · rw [hval, getKey_delKey_self, if_pos hemp]
      · rw [hval, getKey_delKey_ne _ _ _ hne', getKey_setKey_self, if_pos hnull]
      · intro h _
        rw [h] at hnull
        exact absurd hnull (by decide)
    · have hemp' : ¬((values.filter fun item => !(item.isNull)).isEmpty = true) := hemp
      have hval : normalizeEnumNull m
          = setKey (setKey m "nullable" (.bool true)) "enum"
              (.arr (values.filter fun item => !(item.isNull))) := by
        rw [hunf, if_neg hemp', if_pos hlen, if_pos hnull]
      refine ⟨?_, ?_, ?_, rfl⟩
      · rw [hval, getKey_setKey_self, if_neg hemp']
      · rw [hval, getKey_setKey_ne _ _ _ _ hne', getKey_setKey_self, if_pos hnull]
      · intro h _
        rw [h] at hnull
        exact absurd hnull (by decide)
  · have hnull' : values.any GoVal.isNull = false := by
      cases h : values.any GoVal.isNull
      · rfl
      · exact absurd h hnull
    have hfid : (values.filter fun item => !(item.isNull)) = values := by
      apply List.filter_eq_self.mpr
      intro a ha
      cases hna : a.isNull
      · simp
      · exact absurd (List.any_eq_true.mpr ⟨a, ha, hna⟩) hnull
    have hlen : ¬((values.filter fun item => !(item.isNull)).length ≠ values.length) := by
      rw [hfid]
      omega
    by_cases hemp : (values.filter fun item => !(item.isNull)).isEmpty = true
    · have hval : normalizeEnumNull m = delKey m "enum" := by
        rw [hunf, if_pos hemp, if_neg hnull]
      refine ⟨?_, ?_, ?_, rfl⟩
      · rw [hval, getKey_delKey_self, if_pos hemp]
      · rw [hval, getKey_delKey_ne _ _ _ hne', if_neg hnull]
      · intro _ hvne
        rw [hfid] at hemp
        rw [hvne] at hemp
        exact absurd hemp (by decide)
    · have hval : normalizeEnumNull m = m := by
        rw [hunf, if_neg hemp, if_neg hlen, if_neg hnull]
      refine ⟨?_, ?_, ?_, rfl⟩
      · rw [hval, if_neg hemp, hfid, henum]
      · rw [hval, if_neg hnull]
      · intro _ _
        exact hval

theorem normalizeEnumNull_spec_witness :
    getKey (normalizeEnumNull [("enum", .arr [.num 1, .num 2, .null])]) "enum"
      = some (.arr [.num 1, .num 2])
    ∧ getKey (normalizeEnumNull [("enum", .arr [.num 1, .num 2, .null])]) "nullable"
      = some (.bool true) := by
  have h := normalizeEnumNull_spec [("enum", .arr [.num 1, .num 2, .null])]
      [.num 1, .num 2, .null] rfl
  refine ⟨?_, ?_⟩
  · rw [h.1]; rfl
  · rw [h.2.1]; rfl

theorem getKey_conv31Fields (fields : List (String × GoVal)) (k : String) :
    getKey (conv31Fields fields) k = (getKey fields k).map convertSchemas31To30 := by
  induction fields with
  | nil => simp [conv31Fields, getKey]
  | cons hd tl ih =>
      obtain ⟨k', v⟩ := hd
      by_cases h : k' = k <;> simp [conv31Fields, getKey, h, ih]

theorem convertSchemas31To30_scalar (v : GoVal) (h : v.isScalar = true) :
    convertSchemas31To30 v = v := by
  cases v <;> simp_all [GoVal.isScalar, convertSchemas31To30]

theorem conv31List_scalars (ts : List GoVal) (h : ∀ t ∈ ts, t.isScalar = true) :
    conv31List ts = ts := by
  induction ts with
  | nil => simp [conv31List]
  | cons hd tl ih =>
      simp only [conv31List]
      rw [convertSchemas31To30_scalar hd (h hd (by simp)), ih fun t ht => h t (by simp [ht])]

theorem conv30List_eq_map (l : List GoVal) : conv30List l = l.map convertSchemas30To31 := by
  induction l with
  | nil => rfl
  | cons hd tl ih => simp [conv30List, ih]

theorem conv31List_eq_map (l : List GoVal) : conv31List l = l.map convertSchemas31To30 := by
  induction l with
  | nil => rfl
  | cons hd tl ih => simp [conv31List, ih]

theorem isNull_conv30 (v : GoVal) : (convertSchemas30To31 v).isNull = v.isNull := by
  cases v with
  | obj fields => rw [convertSchemas30To31_obj]; rfl
  | arr items => rfl
  | null => rfl
  | bool b => rfl
  | num n => rfl
  | str s => rfl

theorem isNull_conv31 (v : GoVal) : (convertSchemas31To30 v).isNull = v.isNull := by
  cases v with
  | obj fields => rw [convertSchemas31To30_obj]; rfl
  | arr items => rfl
  | null => rfl
  | bool b => rfl
  | num n => rfl
  | str s => rfl

theorem isArr_conv30 (v : GoVal) : (convertSchemas30To31 v).isArr = v.isArr := by
  cases v with
  | obj fields => rw [convertSchemas30To31_obj]; rfl
  | arr items => rfl
  | null => rfl
  | bool b => rfl
  | num n => rfl
  | str s => rfl

theorem isArr_conv31 (v : GoVal) : (convertSchemas31To30 v).isArr = v.isArr := by
  cases v with
  | obj fields => rw [convertSchemas31To30_obj]; rfl
  | arr items => rfl
  | null => rfl
  | bool b => rfl
  | num n => rfl
  | str s => rfl

theorem conv30_boolTrue_inv (y : GoVal) (h : convertSchemas30To31 y = .bool true) :
    y = .bool true := by
  cases y with
  | bool b =>
      cases b with
      | false => exact absurd h (by simp [convertSchemas30To31])
      | true => rfl
  | obj fields => rw [convertSchemas30To31_obj] at h; exact absurd h (by simp)
  | arr items =>
      have : convertSchemas30To31 (.arr items) = .arr (conv30List items) := rfl
      rw [this] at h; exact absurd h (by simp)
  | null => exact absurd h (by simp [convertSchemas30To31])
  | num n => exact absurd h (by simp [convertSchemas30To31])
  | str s => exact absurd h (by simp [convertSchemas30To31])

theorem convertSchemas30To31Obj_of_true (fields : List (String × GoVal))
    (h : getKey fields "nullable" = some (.bool true)) :
    convertSchemas30To31Obj fields
      = delKey (mergeTypeWithNull (conv30Fields fields)) "nullable" := by
  rw [convertSchemas30To31Obj]
  have hF : getKey (conv30Fields fields) "nullable" = some (.bool true) := by
    rw [getKey_conv30Fields, h]; rfl
  rw [hF]

theorem convertSchemas30To31Obj_of_not (fields : List (String × GoVal))
    (h : getKey fields "nullable" ≠ some (.bool true)) :
    convertSchemas30To31Obj fields = conv30Fields fields := by
  rw [convertSchemas30To31Obj, getKey_conv30Fields]
  cases ho : getKey fields "nullable" with
  | none => rfl
  | some y =>
      have hy : convertSchemas30To31 y ≠ .bool true := by
        intro hh
        exact h (by rw [ho, conv30_boolTrue_inv y hh])
      simp only [Option.map_some']
      rcases hcy : convertSchemas30To31 y with _ | b | n | s | l | f
      · rfl
      · cases b
        · rfl
        · exact absurd hcy hy
      · rfl
      · rfl
      · rfl
      · rfl

theorem constToEnum_none (m : List (String × GoVal)) (h : getKey m "const" = none) :
    constToEnum m = m := by
  rw [constToEnum, h]

theorem normalizeTypeArray_skip (m : List (String × GoVal))
    (h : ∀ t, getKey m "type" = some t → t.isArr = false) :
    normalizeTypeArray m = m := by
  rw [normalizeTypeArray]
  cases ho : getKey m "type" with
  | none => rfl
  | some t =>
      rcases t with _ | b | n | s | l | f
      · rfl
      · rfl
      · rfl
      · rfl
      · exact absurd (h _ ho) (by simp [GoVal.isArr])
      · rfl

theorem normalizeEnumNull_skip (m : List (String × GoVal))
    (h : ∀ t, getKey m "enum" = some t → t.isArr = false) :
    normalizeEnumNull m = m := by
  rw [normalizeEnumNull]
  cases ho : getKey m "enum" with
  | none => rfl
  | some t =>
      rcases t with _ | b | n | s | l | f
      · rfl
      · rfl
      · rfl
      · rfl
      · exact absurd (h _ ho) (by simp [GoVal.isArr])
      · rfl

theorem normalizeEnumNull_nonull (m : List (String × GoVal)) (vs : List GoVal)
    (henum : getKey m "enum" = some (.arr vs))
    (hno : vs.any GoVal.isNull = false) (hne : vs.isEmpty = false) :
    normalizeEnumNull m = m := by
  have hfid : (vs.filter fun item => !(item.isNull)) = vs := by
    apply List.filter_eq_self.mpr
    intro a ha
    cases hna : a.isNull
    · simp
    · exact absurd (List.any_eq_true.mpr ⟨a, ha, hna⟩) (by rw [hno]; simp)
  rw [normalizeEnumNull, henum]
  simp only [hfid, hno, hne]
  simp

theorem getKey_isSome_of_mem (m : List (String × GoVal)) (k : String) (v : GoVal)
    (h : (k, v) ∈ m) : (getKey m k).isSome = true := by
  induction m with
  | nil => cases h
  | cons hd tl ih =>
      obtain ⟨k', w⟩ := hd
      by_cases hk : k' = k
      · simp [getKey, hk]
      · rcases List.mem_cons.mp h with heq | hmem
        · exact absurd (congrArg Prod.fst heq).symm hk
        · simp only [getKey, if_neg hk]
          exact ih hmem

theorem getKey_mem (m : List (String × GoVal)) (k : String) (v : GoVal)
    (h : getKey m k = some v) : (k, v) ∈ m := by
  induction m with
  | nil => cases h
  | cons hd tl ih =>
      obtain ⟨k', w⟩ := hd
      by_cases hk : k' = k
      · subst hk
        simp only [getKey, if_pos rfl] at h
        cases h
        exact List.mem_cons_self _ _
      · simp only [getKey, if_neg hk] at h
        exact List.mem_cons_of_mem _ (ih h)

theorem getKey_of_mem_nodup (m : List (String × GoVal)) (k : String) (v : GoVal)
    (hnd : nodupKeys m = true) (h : (k, v) ∈ m) : getKey m k = some v := by
  induction m with
  | nil => cases h
  | cons hd tl ih =>
      obtain ⟨k', w⟩ := hd
      simp only [nodupKeys, Bool.and_eq_true] at hnd
      rcases List.mem_cons.mp h with heq | hmem
      · cases heq
        simp [getKey]
      · by_cases hk : k' = k
        · subst hk
          have := getKey_isSome_of_mem tl k' v hmem
          rw [Option.isNone_iff_eq_none.mp hnd.1] at this
          cases this
        · simp only [getKey, if_neg hk]
          exact ih hnd.2 hmem

theorem nodupKeys_conv30Fields (m : List (String × GoVal)) :
    nodupKeys (conv30Fields m) = nodupKeys m := by
  induction m with
  | nil => rfl
  | cons hd tl ih =>
      obtain ⟨k, v⟩ := hd
      simp only [conv30Fields, nodupKeys, getKey_conv30Fields, ih]
      cases getKey tl k <;> rfl

theorem nodupKeys_conv31Fields (m : List (String × GoVal)) :
    nodupKeys (conv31Fields m) = nodupKeys m := by
  induction m with
  | nil => rfl
  | cons hd tl ih =>
      obtain ⟨k, v⟩ := hd
      simp only [conv31Fields, nodupKeys, getKey_conv31Fields, ih]
      cases getKey tl k <;> rfl

theorem nodupKeys_setKey (m : List (String × GoVal)) (k : String) (v : GoVal)
    (h : nodupKeys m = true) : nodupKeys (setKey m k v) = true := by
  induction m with
  | nil => simp [setKey, nodupKeys, getKey]
  | cons hd tl ih =>
      obtain ⟨k', w⟩ := hd
      simp only [nodupKeys, Bool.and_eq_true] at h
      by_cases hk : k' = k
      · simp only [setKey, if_pos hk, nodupKeys, Bool.and_eq_true]
        exact ⟨h.1, h.2⟩
      · simp only [setKey, if_neg hk, nodupKeys, Bool.and_eq_true]
        refine ⟨?_, ih h.2⟩
        rw [getKey_setKey_ne _ _ _ _ hk]
        exact h.1

theorem nodupKeys_delKey (m : List (String × GoVal)) (k : String)
    (h : nodupKeys m = true) : nodupKeys (delKey m k) = true := by
  induction m with
  | nil => simp [delKey, nodupKeys]
  | cons hd tl ih =>
      obtain ⟨k', w⟩ := hd
      simp only [nodupKeys, Bool.and_eq_true] at h
      by_cases hk : k' = k
      · simp only [delKey, if_pos hk]
        exact ih h.2
      · simp only [delKey, if_neg hk, nodupKeys, Bool.and_eq_true]
        refine ⟨?_, ih h.2⟩
        rw [getKey_delKey_ne _ _ _ hk]
        exact h.1

theorem subMap_of_entries (r b : List (String × GoVal))
    (h : ∀ p ∈ r, ∃ w, getKey b p.1 = some w ∧ eqv p.2 w = true) :
    subMap r b = true := by
  induction r with
  | nil => rfl
  | cons hd tl ih =>
      obtain ⟨k, v⟩ := hd
      obtain ⟨w, hw, he⟩ := h (k, v) (List.mem_cons_self _ _)
      simp only [subMap, Bool.and_eq_true]
      constructor
      · rw [hw]
        exact he
      · exact ih fun p hp => h p (List.mem_cons_of_mem _ hp)

theorem keysIn_of (b r : List (String × GoVal))
    (h : ∀ p ∈ b, (getKey r p.1).isSome = true) : keysIn b r = true := by
  induction b with
  | nil => rfl
  | cons hd tl ih =>
      obtain ⟨k, v⟩ := hd
      simp only [keysIn, Bool.and_eq_true]
      exact ⟨h (k, v) (List.mem_cons_self _ _), ih fun p hp => h p (List.mem_cons_of_mem _ hp)⟩

theorem eqv_obj_close (r fields : List (String × GoVal)) (hnd : nodupKeys r = true)
    (h : ∀ k, optEqv (getKey r k) (getKey fields k)) :
    eqv (.obj r) (.obj fields) = true := by
  rw [eqv, Bool.and_eq_true]
  constructor
  · apply subMap_of_entries
    intro p hp
    have hget : getKey r p.1 = some p.2 := getKey_of_mem_nodup r p.1 p.2 hnd (by
      obtain ⟨k, v⟩ := p
      exact hp)
    have ho := h p.1
    rw [hget] at ho
    cases hb : getKey fields p.1 with
    | none => rw [hb] at ho; cases ho
    | some w =>
        rw [hb] at ho
        exact ⟨w, rfl, ho⟩
  · apply keysIn_of
    intro p hp
    have hsb := getKey_isSome_of_mem fields p.1 p.2 hp
    have ho := h p.1
    cases hr : getKey r p.1 with
    | none =>
        rw [hr] at ho
        cases hb : getKey fields p.1 with
        | none => rw [hb] at hsb; cases hsb
        | some w => rw [hb] at ho; cases ho
    | some w => rfl

theorem roundTrip_isArr (v : GoVal) : (roundTrip v).isArr = v.isArr := by
  rw [roundTrip, isArr_conv31, isArr_conv30]

theorem roundTrip_isNull (v : GoVal) : (roundTrip v).isNull = v.isNull := by
  rw [roundTrip, isNull_conv31, isNull_conv30]

theorem normalizeTypeArray_fromMap (m fields : List (String × GoVal))
    (hm : getKey m "type" = (getKey fields "type").map roundTrip)
    (hno : ∀ l, getKey fields "type" ≠ some (.arr l)) :
    normalizeTypeArray m = m := by
  apply normalizeTypeArray_skip
  intro t ht
  rw [hm] at ht
  cases hg : getKey fields "type" with
  | none => rw [hg] at ht; cases ht
  | some t0 =>
      rw [hg] at ht
      simp only [Option.map_some', Option.some.injEq] at ht
      rw [← ht, roundTrip_isArr]
      rcases t0 with _ | b | n | s | l | f
      · rfl
      · rfl
      · rfl
      · rfl
      · exact absurd hg (hno l)
      · rfl

theorem normalizeEnumNull_fromMap (m fields : List (String × GoVal))
    (hm : getKey m "enum" = (getKey fields "enum").map roundTrip)
    (hok : enumOK fields = true) : normalizeEnumNull m = m := by
  rw [enumOK] at hok
  cases hg : getKey fields "enum" with
  | none =>
      apply normalizeEnumNull_skip
      intro t ht
      rw [hm, hg] at ht
      cases ht
  | some e0 =>
      rcases e0 with _ | b | n | s | vs | f
      case arr =>
        rw [hg] at hok
        simp only [Bool.and_eq_true, Bool.not_eq_true'] at hok
        obtain ⟨hnonull, hnonempty⟩ := hok
        have hbe : getKey m "enum" = some (.arr (conv31List (conv30List vs))) := by
          rw [hm, hg]; rfl
        apply normalizeEnumNull_nonull m _ hbe
        · rw [conv31List_eq_map, conv30List_eq_map, List.map_map, List.any_map]
          have hfun : (GoVal.isNull ∘ (convertSchemas31To30 ∘ convertSchemas30To31))
              = GoVal.isNull := by
            funext x
            simp only [Function.comp_apply, isNull_conv31, isNull_conv30]
          rw [hfun, hnonull]
        · rcases vs with _ | ⟨v0, vrest⟩
          · simp at hnonempty
          · rw [conv31List_eq_map, conv30List_eq_map, List.map_map]
            rfl
      all_goals
        apply normalizeEnumNull_skip
        intro t ht
        rw [hm, hg] at ht
        simp only [Option.map_some', Option.some.injEq] at ht
        rw [← ht, roundTrip_isArr]
        rfl

theorem normalizeTypeArray_merge_null (m : List (String × GoVal))
    (hm : getKey m "type" = some (.arr [.str "null"])) :
    normalizeTypeArray m = delKey (setKey m "nullable" (.bool true)) "type" := by
  rw [normalizeTypeArray, hm]
  rfl

theorem normalizeTypeArray_merge_str (m : List (String × GoVal)) (s : String)
    (hm : getKey m "type" = some (.arr [.str s, .str "null"]))
    (hs : ¬(s = "null")) :
    normalizeTypeArray m = setKey (setKey m "nullable" (.bool true)) "type" (.str s) := by
  have hfalse : (s = "null") = False := eq_false hs
  have hni : isNullString (.str s) = false := by
    simp [isNullString, hfalse]
  have hfil : ([GoVal.str s, GoVal.str "null"].filter
      fun item => !(isNullString item) && !(item.isNull)) = [GoVal.str s] := by
    simp [List.filter, isNullString, GoVal.isNull, hfalse]
  have hany : ([GoVal.str s, GoVal.str "null"].any isNullString) = true := by
    simp [List.any, isNullString]
  rw [normalizeTypeArray, hm]
  simp only [hfil, hany, if_true]

mutual

theorem roundTrip_safe_eqv : ∀ v : GoVal, safe v = true → eqv (roundTrip v) v = true
  | .null, _ => rfl
  | .bool b, _ => by simp [roundTrip, convertSchemas30To31, convertSchemas31To30, eqv]
  | .num n, _ => by simp [roundTrip, convertSchemas30To31, convertSchemas31To30, eqv]
  | .str s, _ => by simp [roundTrip, convertSchemas30To31, convertSchemas31To30, eqv]
  | .arr items, h => by
      have hl : safeList items = true := by rw [safe] at h; exact h
      have harr : roundTrip (.arr items) = .arr (conv31List (conv30List items)) := rfl
      rw [harr, eqv]
      exact roundTrip_list_eqv items hl
  | .obj fields, h => by
      rw [safe] at h
      simp only [Bool.and_eq_true, and_assoc] at h
      obtain ⟨hsf, hnd, hconst, htypOK, henumOK⟩ := h
      rw [typeOK, Bool.and_eq_true] at htypOK
      obtain ⟨htyp1, htyp2⟩ := htypOK
      have hne_tn : ("type" : String) ≠ "nullable" := by decide
      have hne_nt : ("nullable" : String) ≠ "type" := by decide
      have hne_ct : ("const" : String) ≠ "type" := by decide
      have hne_cn : ("const" : String) ≠ "nullable" := by decide
      have hne_et : ("enum" : String) ≠ "type" := by decide
      have hne_en : ("enum" : String) ≠ "nullable" := by decide
      have hnoarr : ∀ l, getKey fields "type" ≠ some (.arr l) := by
        intro l hl
        rw [hl] at htyp1
        simp at htyp1
      have hcnone : getKey fields "const" = none := Option.isNone_iff_eq_none.mp hconst
      have hrts : ∀ k w, getKey fields k = some w → eqv (roundTrip w) w = true :=
        roundTrip_fields_eqv fields hsf
      by_cases hnt : getKey fields "nullable" = some (.bool true)
      · -- this node carries nullable: true
        rw [hnt] at htyp2
        have hA30 : convertSchemas30To31 (.obj fields)
            = .obj (delKey (mergeTypeWithNull (conv30Fields fields)) "nullable") := by
          rw [convertSchemas30To31_obj, convertSchemas30To31Obj_of_true fields hnt]
        cases htg : getKey fields "type" with
        | none =>
            have hFt : getKey (conv30Fields fields) "type" = none := by
              rw [getKey_conv30Fields, htg]; rfl
            have hM : mergeTypeWithNull (conv30Fields fields)
                = setKey (conv30Fields fields) "type" (.arr [.str "null"]) := by
              rw [mergeTypeWithNull, hFt]
            set A := delKey (setKey (conv30Fields fields) "type" (.arr [.str "null"]))
                "nullable" with hAdef
            set B := conv31Fields A with hBdef
            have hAt : getKey A "type" = some (.arr [.str "null"]) := by
              rw [hAdef, getKey_delKey_ne _ _ _ hne_tn, getKey_setKey_self]
            have hAgen : ∀ k, k ≠ "type" → k ≠ "nullable" →
                getKey A k = (getKey fields k).map convertSchemas30To31 := by
              intro k h1 h2
              rw [hAdef, getKey_delKey_ne _ _ _ h2, getKey_setKey_ne _ _ _ _ h1,
                getKey_conv30Fields]
            have hBt : getKey B "type" = some (.arr [.str "null"]) := by
              rw [hBdef, getKey_conv31Fields, hAt]; rfl
            have hBgen : ∀ k, k ≠ "type" → k ≠ "nullable" →
                getKey B k = (getKey fields k).map roundTrip := by
              intro k h1 h2
              rw [hBdef, getKey_conv31Fields, hAgen k h1 h2, Option.map_map]
              cases getKey fields k <;> rfl
            have hBconst : getKey B "const" = none := by
              rw [hBgen "const" hne_ct hne_cn, hcnone]; rfl
            have hC : constToEnum B = B := constToEnum_none _ hBconst
            have hT : normalizeTypeArray B
                = delKey (setKey B "nullable" (.bool true)) "type" :=
              normalizeTypeArray_merge_null B hBt
            set R := delKey (setKey B "nullable" (.bool true)) "type" with hRdef
            have hRe : getKey R "enum" = (getKey fields "enum").map roundTrip := by
              rw [hRdef, getKey_delKey_ne _ _ _ hne_et, getKey_setKey_ne _ _ _ _ hne_en]
              exact hBgen "enum" hne_et hne_en
            have hE : normalizeEnumNull R = R := normalizeEnumNull_fromMap R fields hRe henumOK
            have hval : roundTrip (.obj fields) = .obj R := by
              rw [roundTrip, hA30, hM, ← hAdef, convertSchemas31To30_obj,
                convertSchemas31To30Obj, ← hBdef, hC, hT, hE]
            have hndR : nodupKeys R = true := by
              rw [hRdef]
              apply nodupKeys_delKey
              apply nodupKeys_setKey
              rw [hBdef, nodupKeys_conv31Fields, hAdef]
              apply nodupKeys_delKey
              apply nodupKeys_setKey
              rw [nodupKeys_conv30Fields]
              exact hnd
            rw [hval]
            apply eqv_obj_close R fields hndR
            intro k
            by_cases h1 : k = "type"
            · subst h1
              have hRt : getKey R "type" = none := by
                rw [hRdef]; exact getKey_delKey_self _ _
              rw [hRt, htg]
              exact trivial
            by_cases h2 : k = "nullable"
            · subst h2
              have hRn : getKey R "nullable" = some (.bool true) := by
                rw [hRdef, getKey_delKey_ne _ _ _ hne_nt, getKey_setKey_self]
              rw [hRn, hnt]
              show eqv (.bool true) (.bool true) = true
              rfl
            · have hRk : getKey R k = (getKey fields k).map roundTrip := by
                rw [hRdef, getKey_delKey_ne _ _ _ h1, getKey_setKey_ne _ _ _ _ h2]
                exact hBgen k h1 h2
              rw [hRk]
              cases hg : getKey fields k with
              | none => exact trivial
              | some w =>
                  show eqv (roundTrip w) w = true
                  exact hrts k w hg
        | some t0 =>
            rw [htg] at htyp2
            cases t0 with
            | null => simp at htyp2
            | bool b => simp at htyp2
            | num n => simp at htyp2
            | arr l => simp at htyp2
            | obj f => simp at htyp2
            | str s =>
                simp at htyp2
                obtain ⟨hs1, hs2⟩ := htyp2
                have hFt : getKey (conv30Fields fields) "type" = some (.str s) := by
                  rw [getKey_conv30Fields, htg]; rfl
                have hM : mergeTypeWithNull (conv30Fields fields)
                    = setKey (conv30Fields fields) "type" (.arr [.str s, .str "null"]) := by
                  rw [mergeTypeWithNull, hFt]
                  simp [eq_false hs1]
                set A := delKey (setKey (conv30Fields fields) "type"
                    (.arr [.str s, .str "null"])) "nullable" with hAdef
                set B := conv31Fields A with hBdef
                have hAt : getKey A "type" = some (.arr [.str s, .str "null"]) := by
                  rw [hAdef, getKey_delKey_ne _ _ _ hne_tn, getKey_setKey_self]
                have hAgen : ∀ k, k ≠ "type" → k ≠ "nullable" →
                    getKey A k = (getKey fields k).map convertSchemas30To31 := by
                  intro k h1 h2
                  rw [hAdef, getKey_delKey_ne _ _ _ h2, getKey_setKey_ne _ _ _ _ h1,
                    getKey_conv30Fields]
                have hBt : getKey B "type" = some (.arr [.str s, .str "null"]) := by
                  rw [hBdef, getKey_conv31Fields, hAt]; rfl
                have hBgen : ∀ k, k ≠ "type" → k ≠ "nullable" →
                    getKey B k = (getKey fields k).map roundTrip := by
                  intro k h1 h2
                  rw [hBdef, getKey_conv31Fields, hAgen k h1 h2, Option.map_map]
                  cases getKey fields k <;> rfl
                have hBconst : getKey B "const" = none := by
                  rw [hBgen "const" hne_ct hne_cn, hcnone]; rfl
                have hC : constToEnum B = B := constToEnum_none _ hBconst
                have hT : normalizeTypeArray B
                    = setKey (setKey B "nullable" (.bool true)) "type" (.str s) :=
                  normalizeTypeArray_merge_str B s hBt hs2
                set R := setKey (setKey B "nullable" (.bool true)) "type" (.str s) with hRdef
                have hRe : getKey R "enum" = (getKey fields "enum").map roundTrip := by
                  rw [hRdef, getKey_setKey_ne _ _ _ _ hne_et, getKey_setKey_ne _ _ _ _ hne_en]
                  exact hBgen "enum" hne_et hne_en
                have hE : normalizeEnumNull R = R :=
                  normalizeEnumNull_fromMap R fields hRe henumOK
                have hval : roundTrip (.obj fields) = .obj R := by
                  rw [roundTrip, hA30, hM, ← hAdef, convertSchemas31To30_obj,
                    convertSchemas31To30Obj, ← hBdef, hC, hT, hE]
                have hndR : nodupKeys R = true := by
                  rw [hRdef]
                  apply nodupKeys_setKey
                  apply nodupKeys_setKey
                  rw [hBdef, nodupKeys_conv31Fields, hAdef]
                  apply nodupKeys_delKey
                  apply nodupKeys_setKey
                  rw [nodupKeys_conv30Fields]
                  exact hnd
                rw [hval]
                apply eqv_obj_close R fields hndR
                intro k
                by_cases h1 : k = "type"
                · subst h1
                  have hRt : getKey R "type" = some (.str s) := by
                    rw [hRdef, getKey_setKey_self]
                  rw [hRt, htg]
                  show eqv (.str s) (.str s) = true
                  simp [eqv]
                by_cases h2 : k = "nullable"
                · subst h2
                  have hRn : getKey R "nullable" = some (.bool true) := by
                    rw [hRdef, getKey_setKey_ne _ _ _ _ hne_nt, getKey_setKey_self]
                  rw [hRn, hnt]
                  show eqv (.bool true) (.bool true) = true
                  rfl
                · have hRk : getKey R k = (getKey fields k).map roundTrip := by
                    rw [hRdef, getKey_setKey_ne _ _ _ _ h1, getKey_setKey_ne _ _ _ _ h2]
                    exact hBgen k h1 h2
                  rw [hRk]
                  cases hg : getKey fields k with
                  | none => exact trivial
                  | some w =>
                      show eqv (roundTrip w) w = true
                      exact hrts k w hg
      · -- nullable is not exactly `true` here: the node is untouched up to children
        have hA : convertSchemas30To31 (.obj fields) = .obj (conv30Fields fields) := by
          rw [convertSchemas30To31_obj, convertSchemas30To31Obj_of_not fields hnt]
        set B := conv31Fields (conv30Fields fields) with hBdef
        have hBgen : ∀ k, getKey B k = (getKey fields k).map roundTrip := by
          intro k
          rw [hBdef, getKey_conv31Fields, getKey_conv30Fields, Option.map_map]
          cases getKey fields k <;> rfl
        have hBconst : getKey B "const" = none := by
          rw [hBgen "const", hcnone]; rfl
        have hC : constToEnum B = B := constToEnum_none _ hBconst
        have hT : normalizeTypeArray B = B :=
          normalizeTypeArray_fromMap B fields (hBgen "type") hnoarr
        have hE : normalizeEnumNull B = B :=
          normalizeEnumNull_fromMap B fields (hBgen "enum") henumOK
        have hval : roundTrip (.obj fields) = .obj B := by
          rw [roundTrip, hA, convertSchemas31To30_obj, convertSchemas31To30Obj,
            ← hBdef, hC, hT, hE]
        have hndB : nodupKeys B = true := by
          rw [hBdef, nodupKeys_conv31Fields, nodupKeys_conv30Fields]
          exact hnd
        rw [hval]
        apply eqv_obj_close B fields hndB
        intro k
        rw [hBgen k]
        cases hg : getKey fields k with
        | none => exact trivial
        | some w =>
            show eqv (roundTrip w) w = true
            exact hrts k w hg

theorem roundTrip_fields_eqv :
    ∀ fs : List (String × GoVal), safeFields fs = true →
      ∀ k w, getKey fs k = some w → eqv (roundTrip w) w = true
  | [], _, _, _, hg => by cases hg
  | (k', v) :: rest, h, k, w, hg => by
      have h1 : safe v = true ∧ safeFields rest = true := by
        rw [safeFields, Bool.and_eq_true] at h
        exact h
      by_cases hk : k' = k
      · rw [getKey, if_pos hk] at hg
        cases hg
        exact roundTrip_safe_eqv v h1.1
      · rw [getKey, if_neg hk] at hg
        exact roundTrip_fields_eqv rest h1.2 k w hg

theorem roundTrip_list_eqv :
    ∀ l : List GoVal, safeList l = true →
      eqvList (conv31List (conv30List l)) l = true
  | [], _ => rfl
  | v :: rest, h => by
      have h1 : safe v = true ∧ safeList rest = true := by
        rw [safeList, Bool.and_eq_true] at h
        exact h
      have hc : conv31List (conv30List (v :: rest))
          = roundTrip v :: conv31List (conv30List rest) := rfl
      rw [hc, eqvList, Bool.and_eq_true]
      exact ⟨roundTrip_safe_eqv v h1.1, roundTrip_list_eqv rest h1.2⟩

end

/-- C9 counterexample: the document node `\x7b"type": "", "nullable": true\x7d`
uses only `nullable` (its `type` is a string, not an array, and it has no
`const`), yet the 3.0 → 3.1 → 3.0 round trip deletes its `type` field
instead of restoring the original empty-string value. -/
theorem roundTrip_emptyType_counterexample :
    roundTrip (.obj [("type", .str ""), ("nullable", .bool true)])
      = .obj [("nullable", .bool true)]
    ∧ getKey [("nullable", GoVal.bool true)] "type" = none
    ∧ getKey [("type", GoVal.str ""), ("nullable", GoVal.bool true)] "type"
      = some (.str "") :=
  ⟨rfl, rfl, rfl⟩

/-- C9 (amended): the 3.0 → 3.1 → 3.0 dialect round trip reproduces the
document exactly, up to object-key ordering — in particular each node's
`nullable` and `type` fields — provided the document has no `const` fields,
no array-valued `type` fields, every array-valued `enum` is non-empty and
free of `null` entries, and every node carrying `nullable: true` has `type`
absent or a non-empty string other than `"null"`. -/
theorem roundTrip_stable (v : GoVal) (h : safe v = true) :
    eqv (roundTrip v) v = true :=
  roundTrip_safe_eqv v h

theorem roundTrip_stable_witness :
    safe (.obj [("type", .str "string"), ("nullable", .bool true)]) = true
    ∧ eqv (roundTrip (.obj [("type", .str "string"), ("nullable", .bool true)]))
        (.obj [("type", .str "string"), ("nullable", .bool true)]) = true :=
  ⟨rfl, roundTrip_stable _ rfl⟩

end VersionService

namespace Decycler

theorem spanOK_nil (σ : DSt) : SpanOK σ σ [] :=
  ⟨rfl, Nat.le_refl _, by simp, List.nodup_nil⟩

theorem spanOK_append {σ σ₁ σ₂ : DSt} {xs ys : List Nat}
    (h1 : SpanOK σ σ₁ xs) (h2 : SpanOK σ₁ σ₂ ys) : SpanOK σ σ₂ (xs ++ ys) := by
  obtain ⟨e1, l1, r1, n1⟩ := h1
  obtain ⟨e2, l2, r2, n2⟩ := h2
  refine ⟨e2.trans e1, l1.trans l2, ?_, ?_⟩
  · intro i hi
    rcases List.mem_append.mp hi with hx | hy
    · have := r1 i hx
      omega
    · have := r2 i hy
      omega
  · rw [List.nodup_append]
    refine ⟨n1, n2, ?_⟩
    intro i hx hy
    have hxr := r1 i hx
    have hyr := r2 i hy
    omega

theorem spanOK_sub {σ σ' : DSt} {xs ys : List Nat} (h : SpanOK σ σ' xs)
    (hsub : ys.Sublist xs) : SpanOK σ σ' ys := by
  obtain ⟨e, l, r, n⟩ := h
  exact ⟨e, l, fun i hi => r i (hsub.mem hi), n.sublist hsub⟩

theorem spanOK_single_fresh {σ σ' : DSt} (he : σ'.heap = σ.heap)
    (hc : σ'.ctr = σ.ctr + 1) : SpanOK σ σ' [σ.ctr] := by
  refine ⟨he, by omega, ?_, by simp⟩
  intro i hi
  simp only [List.mem_singleton] at hi
  omega

theorem visitFields_spanOK (vc : JVal → List Seg → String → DSt → Option (VRes × DSt))
    (hvc : ∀ c p pk σ r σ', vc c p pk σ = some (r, σ') → SpanOK σ σ' (idsOfRes r)) :
    ∀ (fields : List (String × JVal)) (path : List Seg) (σ : DSt) copy bub σ',
      visitFields vc fields path σ = some (copy, bub, σ') →
      SpanOK σ σ' (idsOfFields copy) := by
  intro fields
  induction fields with
  | nil =>
      intro path σ copy bub σ' h
      simp only [visitFields] at h
      cases h
      exact spanOK_nil σ
  | cons hd tl ih =>
      intro path σ copy bub σ' h
      obtain ⟨key, child⟩ := hd
      simp only [visitFields] at h
      cases hvcres : vc child (path ++ [.key key]) key σ with
      | none =>
          simp only [hvcres] at h
          exact Option.noConfusion h
      | some rσ =>
          obtain ⟨r, σ₁⟩ := rσ
          simp only [hvcres] at h
          have hstep := hvc child (path ++ [.key key]) key σ r σ₁ hvcres
          cases r with
          | out v =>
              cases hrest : visitFields vc tl path σ₁ with
              | none =>
                  simp only [hrest] at h
                  exact Option.noConfusion h
              | some cbs =>
                  obtain ⟨copy', bub', σ''⟩ := cbs
                  simp only [hrest] at h
                  cases h
                  have htl := ih path σ₁ _ _ _ hrest
                  have hids : idsOfFields ((key, v) :: copy') = idsOf v ++ idsOfFields copy' := rfl
                  rw [hids]
                  exact spanOK_append hstep htl
          | marker ref bubble =>
              cases bubble with
              | false =>
                  simp only [alloca] at h
                  cases hrest : visitFields vc tl path { σ₁ with ctr := σ₁.ctr + 1 } with
                  | none =>
                      simp only [hrest] at h
                      exact Option.noConfusion h
                  | some cbs =>
                      obtain ⟨copy', bub', σ''⟩ := cbs
                      simp only [hrest] at h
                      cases h
                      have htl := ih path _ _ _ _ hrest
                      have hids : idsOfFields ((key, OVal.obj σ₁.ctr [("$ref", .str ref)]) :: copy')
                          = σ₁.ctr :: idsOfFields copy' := rfl
                      rw [hids]
                      have halloc : SpanOK σ₁ { σ₁ with ctr := σ₁.ctr + 1 } [σ₁.ctr] :=
                        spanOK_single_fresh rfl rfl
                      have hmk : SpanOK σ σ₁ ([] : List Nat) := by
                        obtain ⟨e, l, _, _⟩ := hstep
                        exact ⟨e, l, by simp, List.nodup_nil⟩
                      have := spanOK_append hmk (spanOK_append halloc htl)
                      simpa using this
              | true =>
                  cases hrest : visitFields vc tl path σ₁ with
                  | none =>
                      simp only [hrest] at h
                      exact Option.noConfusion h
                  | some cbs =>
                      obtain ⟨copy', bub', σ''⟩ := cbs
                      simp only [hrest] at h
                      cases h
                      have htl := ih path σ₁ _ _ _ hrest
                      have hmk : SpanOK σ σ₁ ([] : List Nat) := by
                        obtain ⟨e, l, _, _⟩ := hstep
                        exact ⟨e, l, by simp, List.nodup_nil⟩
                      have := spanOK_append hmk htl
                      simpa using this

theorem visitElems_spanOK (vc : JVal → List Seg → String → DSt → Option (VRes × DSt))
    (hvc : ∀ c p pk σ r σ', vc c p pk σ = some (r, σ') → SpanOK σ σ' (idsOfRes r)) :
    ∀ (items : List JVal) (path : List Seg) (index : Nat) (σ : DSt) rs σ',
      visitElems vc items path index σ = some (rs, σ') →
      SpanOK σ σ' (idsOfResList rs) := by
  intro items
  induction items with
  | nil =>
      intro path index σ rs σ' h
      simp only [visitElems] at h
      cases h
      exact spanOK_nil σ
  | cons hd tl ih =>
      intro path index σ rs σ' h
      simp only [visitElems] at h
      cases hvcres : vc hd (path ++ [.idx index]) (Seg.toStr (.idx index)) σ with
      | none =>
          simp only [hvcres] at h
          exact Option.noConfusion h
      | some rσ =>
          obtain ⟨r, σ₁⟩ := rσ
          simp only [hvcres] at h
          cases hrest : visitElems vc tl path (index + 1) σ₁ with
          | none =>
              simp only [hrest] at h
              exact Option.noConfusion h
          | some rsσ =>
              obtain ⟨rs', σ''⟩ := rsσ
              simp only [hrest] at h
              cases h
              have hstep := hvc hd (path ++ [.idx index]) (Seg.toStr (.idx index)) σ r σ₁ hvcres
              have htl := ih path (index + 1) σ₁ _ _ hrest
              have hids : idsOfResList (r :: rs') = idsOfRes r ++ idsOfResList rs' := rfl
              rw [hids]
              exact spanOK_append hstep htl

theorem wrapMarkers_spec :
    ∀ (rs : List VRes) (σ : DSt) outs σ', wrapMarkers rs σ = (outs, σ') →
      σ'.heap = σ.heap ∧ σ.ctr ≤ σ'.ctr
      ∧ (∀ i ∈ idsOfList outs, i ∈ idsOfResList rs ∨ (σ.ctr ≤ i ∧ i < σ'.ctr))
      ∧ ((idsOfResList rs).Nodup → (∀ i ∈ idsOfResList rs, i < σ.ctr) →
          (idsOfList outs).Nodup) := by
  intro rs
  induction rs with
  | nil =>
      intro σ outs σ' h
      simp only [wrapMarkers] at h
      cases h
      exact ⟨rfl, Nat.le_refl _, by simp [idsOfList], fun _ _ => by simp [idsOfList]⟩
  | cons hd tl ih =>
      intro σ outs σ' h
      cases hd with
      | out v =>
          simp only [wrapMarkers] at h
          cases hrest : wrapMarkers tl σ with
          | mk os σ₁ =>
              simp only [hrest] at h
              cases h
              obtain ⟨he, hl, hr, hn⟩ := ih _ _ _ hrest
              refine ⟨he, hl, ?_, ?_⟩
              · intro i hi
                have hi' : i ∈ idsOf v ++ idsOfList os := by
                  simpa [idsOfList] using hi
                rcases List.mem_append.mp hi' with hv | ho
                · exact Or.inl (by simp [idsOfResList, idsOfRes, List.mem_append, hv])
                · rcases hr i ho with hin | hfr
                  · exact Or.inl (by simp [idsOfResList, idsOfRes, List.mem_append, hin])
                  · exact Or.inr hfr
              · intro hnd hlt
                have hnd' : (idsOf v ++ idsOfResList tl).Nodup := by
                  simpa [idsOfResList, idsOfRes] using hnd
                rw [List.nodup_append] at hnd'
                obtain ⟨hnv, hnt, hdisj⟩ := hnd'
                have : (idsOf v ++ idsOfList os).Nodup := by
                  rw [List.nodup_append]
                  refine ⟨hnv, ?_, ?_⟩
                  · exact hn hnt fun i hi => hlt i
                      (by simp [idsOfResList, idsOfRes, List.mem_append, hi])
                  · intro i hvi hoi
                    rcases hr i hoi with hin | hfr
                    · exact hdisj hvi hin
                    · have := hlt i (by simp [idsOfResList, idsOfRes, List.mem_append, hvi])
                      omega
                simpa [idsOfList] using this
      | marker ref bubble =>
          simp only [wrapMarkers, alloca] at h
          cases hrest : wrapMarkers tl { σ with ctr := σ.ctr + 1 } with
          | mk os σ₁ =>
              simp only [hrest] at h
              cases h
              obtain ⟨he, hl, hr, hn⟩ := ih _ _ _ hrest
              refine ⟨he, by simp at hl ⊢; omega, ?_, ?_⟩
              · intro i hi
                have hi' : i ∈ idsOf (OVal.obj σ.ctr [("$ref", .str ref)]) ++ idsOfList os := by
                  simpa [idsOfList] using hi
                rcases List.mem_append.mp hi' with hv | ho
                · right
                  have : i = σ.ctr := by
                    simpa [idsOf, idsOfFields] using hv
                  subst this
                  simp at hl
                  omega
                · rcases hr i ho with hin | hfr
                  · exact Or.inl (by simp [idsOfResList, idsOfRes, List.mem_append, hin])
                  · right
                    simp at hfr
                    omega
              · intro hnd hlt
                have hnd' : (idsOfResList tl).Nodup := by
                  simpa [idsOfResList, idsOfRes] using hnd
                have hids : idsOfList (OVal.obj σ.ctr [("$ref", .str ref)] :: os)
                    = σ.ctr :: idsOfList os := by
                  simp [idsOfList, idsOf, idsOfFields]
                rw [hids, List.nodup_cons]
                refine ⟨?_, ?_⟩
                · intro hmem
                  rcases hr _ hmem with hin | hfr
                  · have := hlt _ (by simpa [idsOfResList, idsOfRes] using hin)
                    omega
                  · simp at hfr
                · exact hn hnd' fun i hi => by
                    have := hlt i (by simpa [idsOfResList, idsOfRes] using hi)
                    simp
                    omega

theorem recordPointers_heap (σ : DSt) (a : Nat) (path : List Seg) :
    (recordPointers σ a path).heap = σ.heap := rfl

theorem recordPointers_ctr (σ : DSt) (a : Nat) (path : List Seg) :
    (recordPointers σ a path).ctr = σ.ctr := rfl

theorem visit_spanOK : ∀ (fuel : Nat) (v : JVal) (path : List Seg) (pk : String)
    (stack : List Nat) (σ : DSt) (r : VRes) (σ' : DSt),
    visit fuel v path pk stack σ = some (r, σ') → SpanOK σ σ' (idsOfRes r) := by
  intro fuel
  induction fuel with
  | zero =>
      intro v path pk stack σ r σ' h
      simp [visit] at h
  | succ fuel ih =>
      intro v path pk stack σ r σ' h
      cases v with
      | str s => simp only [visit] at h; cases h; exact spanOK_nil σ
      | num n => simp only [visit] at h; cases h; exact spanOK_nil σ
      | bool b => simp only [visit] at h; cases h; exact spanOK_nil σ
      | null => simp only [visit] at h; cases h; exact spanOK_nil σ
      | addr a =>
          simp only [visit] at h
          by_cases hstk : stack.contains a
          · rw [if_pos hstk] at h
            cases h
            exact spanOK_nil σ
          · rw [if_neg hstk] at h
            generalize hσ₂ : recordPointers σ a path = σ₂ at h
            have hrh : σ₂.heap = σ.heap := by
              rw [← hσ₂]; exact recordPointers_heap σ a path
            have hrc : σ₂.ctr = σ.ctr := by
              rw [← hσ₂]; exact recordPointers_ctr σ a path
            cases hhf : heapFind σ₂.heap a with
            | none =>
                simp only [hhf] at h
                cases h
                exact ⟨hrh, by omega, by simp [idsOfRes, idsOf], by simp [idsOfRes, idsOf]⟩
            | some node =>
                cases node with
                | arr elems =>
                    simp only [hhf, alloca] at h
                    cases hve : visitElems
                        (fun child p pk σ => visit fuel child p pk (a :: stack) σ)
                        elems path 0 { σ₂ with ctr := σ₂.ctr + 1 } with
                    | none =>
                        simp only [hve] at h
                        exact Option.noConfusion h
                    | some rsσ =>
                        obtain ⟨results, σ₄⟩ := rsσ
                        simp only [hve] at h
                        have hspan := visitElems_spanOK _
                          (fun c p pk σ r σ' hc => ih c p pk (a :: stack) σ r σ' hc)
                          elems path 0 _ results σ₄ hve
                        obtain ⟨heh, hel, her, hen⟩ := hspan
                        simp only at heh hel her
                        cases hfind : results.find? isBubbleMarker with
                        | some m =>
                            cases m with
                            | marker ref b =>
                                simp only [hfind, alloca] at h
                                cases h
                                refine ⟨by simpa [heh] using hrh, by simp; omega, ?_, ?_⟩
                                · intro i hi
                                  simp [idsOfRes, idsOf, idsOfFields] at hi
                                  subst hi
                                  simp
                                  omega
                                · simp [idsOfRes, idsOf, idsOfFields]
                            | out v =>
                                simp only [hfind] at h
                                cases hwm : wrapMarkers results σ₄ with
                                | mk outs σ₅ =>
                                    simp only [hwm] at h
                                    cases h
                                    obtain ⟨hwh, hwl, hwr, hwn⟩ :=
                                      wrapMarkers_spec _ _ _ _ hwm
                                    refine ⟨by rw [hwh, heh]; exact hrh, by omega, ?_, ?_⟩
                                    · intro i hi
                                      simp only [idsOfRes, idsOf] at hi
                                      rcases List.mem_cons.mp hi with hi0 | hio
                                      · subst hi0; omega
                                      · rcases hwr i hio with hin | hfr
                                        · have := her i hin
                                          simp at this <;> omega
                                        · omega
                                    · simp only [idsOfRes, idsOf, List.nodup_cons]
                                      constructor
                                      · intro hmem
                                        rcases hwr _ hmem with hin | hfr
                                        · have := her _ hin
                                          simp at this <;> omega
                                        · omega
                                      · exact hwn hen fun i hi => by
                                          have := her i hi
                                          simp at this <;> omega
                        | none =>
                            simp only [hfind] at h
                            cases hwm : wrapMarkers results σ₄ with
                            | mk outs σ₅ =>
                                simp only [hwm] at h
                                cases h
                                obtain ⟨hwh, hwl, hwr, hwn⟩ :=
                                  wrapMarkers_spec _ _ _ _ hwm
                                refine ⟨by rw [hwh, heh]; exact hrh, by omega, ?_, ?_⟩
                                · intro i hi
                                  simp only [idsOfRes, idsOf] at hi
                                  rcases List.mem_cons.mp hi with hi0 | hio
                                  · subst hi0; omega
                                  · rcases hwr i hio with hin | hfr
                                    · have := her i hin
                                      simp at this <;> omega
                                    · omega
                                · simp only [idsOfRes, idsOf, List.nodup_cons]
                                  constructor
                                  · intro hmem
                                    rcases hwr _ hmem with hin | hfr
                                    · have := her _ hin
                                      simp at this <;> omega
                                    · omega
                                  · exact hwn hen fun i hi => by
                                      have := her i hi
                                      simp at this <;> omega
                | obj fields =>
                    simp only [hhf, alloca] at h
                    cases hvf : visitFields
                        (fun child p pk σ => visit fuel child p pk (a :: stack) σ)
                        fields path { σ₂ with ctr := σ₂.ctr + 1 } with
                    | none =>
                        simp only [hvf] at h
                        exact Option.noConfusion h
                    | some cbs =>
                        obtain ⟨copy, bub, σ₄⟩ := cbs
                        simp only [hvf] at h
                        have hspan := visitFields_spanOK _
                          (fun c p pk σ r σ' hc => ih c p pk (a :: stack) σ r σ' hc)
                          fields path _ copy bub σ₄ hvf
                        obtain ⟨hfh, hfl, hfr, hfn⟩ := hspan
                        simp only at hfh hfl hfr
                        cases bub with
                        | some ref =>
                            simp only [objResult, alloca] at h
                            cases h
                            refine ⟨by simpa [hfh] using hrh, by simp; omega, ?_, ?_⟩
                            · intro i hi
                              simp [idsOfRes, idsOf, idsOfFields] at hi
                              subst hi
                              simp
                              omega
                            · simp [idsOfRes, idsOf, idsOfFields]
                        | none =>
                            simp only [objResult] at h
                            cases h
                            refine ⟨by rw [hfh]; exact hrh, by omega, ?_, ?_⟩
                            · intro i hi
                              simp only [idsOfRes, idsOf] at hi
                              rcases List.mem_cons.mp hi with hi0 | hio
                              · subst hi0; omega
                              · have := hfr i hio
                                simp at this <;> omega
                            · simp only [idsOfRes, idsOf, List.nodup_cons]
                              constructor
                              · intro hmem
                                have := hfr _ hmem
                                simp at this <;> omega
                              · exact hfn

theorem heapFind_mem_addrs : ∀ (h : Heap) (a : Nat) (node : HNode),
    heapFind h a = some node → a ∈ heapAddrs h := by
  intro h
  induction h with
  | nil => intro a node hf; cases hf
  | cons hd tl ih =>
      intro a node hf
      obtain ⟨b, n⟩ := hd
      simp only [heapFind] at hf
      by_cases hb : b = a
      · subst hb
        simp [heapAddrs]
      · rw [if_neg hb] at hf
        simp only [heapAddrs, List.map_cons, List.mem_cons]
        exact Or.inr (ih a node hf)

theorem remaining_push (h : Heap) (stack : List Nat) (a : Nat)
    (ha : a ∈ heapAddrs h) (hs : ¬ a ∈ stack) :
    remaining h (a :: stack) < remaining h stack := by
  unfold remaining
  rw [List.toFinset_cons, Finset.sdiff_insert]
  apply Finset.card_erase_lt_of_mem
  rw [Finset.mem_sdiff, List.mem_toFinset, List.mem_toFinset]
  exact ⟨ha, hs⟩

theorem visitElems_total (vc : JVal → List Seg → String → DSt → Option (VRes × DSt))
    (H : Heap)
    (hvc : ∀ c p pk σ, σ.heap = H → ∃ r σ', vc c p pk σ = some (r, σ') ∧ σ'.heap = H) :
    ∀ (items : List JVal) (path : List Seg) (index : Nat) (σ : DSt), σ.heap = H →
      ∃ rs σ', visitElems vc items path index σ = some (rs, σ') ∧ σ'.heap = H := by
  intro items
  induction items with
  | nil =>
      intro path index σ hσ
      exact ⟨[], σ, rfl, hσ⟩
  | cons hd tl ih =>
      intro path index σ hσ
      obtain ⟨r, σ₁, hv, h₁⟩ := hvc hd (path ++ [.idx index]) (Seg.toStr (.idx index)) σ hσ
      obtain ⟨rs, σ₂, hrest, h₂⟩ := ih path (index + 1) σ₁ h₁
      exact ⟨r :: rs, σ₂, by simp only [visitElems, hv, hrest], h₂⟩

theorem visitFields_total (vc : JVal → List Seg → String → DSt → Option (VRes × DSt))
    (H : Heap)
    (hvc : ∀ c p pk σ, σ.heap = H → ∃ r σ', vc c p pk σ = some (r, σ') ∧ σ'.heap = H) :
    ∀ (fields : List (String × JVal)) (path : List Seg) (σ : DSt), σ.heap = H →
      ∃ copy bub σ', visitFields vc fields path σ = some (copy, bub, σ') ∧ σ'.heap = H := by
  intro fields
  induction fields with
  | nil =>
      intro path σ hσ
      exact ⟨[], none, σ, rfl, hσ⟩
  | cons hd tl ih =>
      intro path σ hσ
      obtain ⟨key, child⟩ := hd
      obtain ⟨r, σ₁, hv, h₁⟩ := hvc child (path ++ [.key key]) key σ hσ
      cases r with
      | out v =>
          obtain ⟨copy, bub, σ₂, hrest, h₂⟩ := ih path σ₁ h₁
          exact ⟨(key, v) :: copy, bub, σ₂, by simp only [visitFields, hv, hrest], h₂⟩
      | marker ref bubble =>
          cases bubble with
          | false =>
              obtain ⟨copy, bub, σ₂, hrest, h₂⟩ := ih path { σ₁ with ctr := σ₁.ctr + 1 } h₁
              exact ⟨(key, .obj σ₁.ctr [("$ref", .str ref)]) :: copy, bub, σ₂,
                by simp only [visitFields, hv, alloca, hrest], h₂⟩
          | true =>
              obtain ⟨copy, bub, σ₂, hrest, h₂⟩ := ih path σ₁ h₁
              cases bub with
              | some b =>
                  exact ⟨copy, some b, σ₂, by simp only [visitFields, hv, hrest], h₂⟩
              | none =>
                  exact ⟨copy, some ref, σ₂, by simp only [visitFields, hv, hrest], h₂⟩

theorem visit_total : ∀ (fuel : Nat) (v : JVal) (path : List Seg) (pk : String)
    (stack : List Nat) (σ : DSt), remaining σ.heap stack < fuel →
    ∃ r σ', visit fuel v path pk stack σ = some (r, σ') ∧ σ'.heap = σ.heap := by
  intro fuel
  induction fuel with
  | zero =>
      intro v path pk stack σ hlt
      omega
  | succ fuel ih =>
      intro v path pk stack σ hlt
      cases v with
      | str s => exact ⟨_, _, rfl, rfl⟩
      | num n => exact ⟨_, _, rfl, rfl⟩
      | bool b => exact ⟨_, _, rfl, rfl⟩
      | null => exact ⟨_, _, rfl, rfl⟩
      | addr a =>
          by_cases hstk : stack.contains a
          · exact ⟨_, _, by simp only [visit]; rw [if_pos hstk], rfl⟩
          · have hrh := recordPointers_heap σ a path
            cases hhf : heapFind (recordPointers σ a path).heap a with
            | none =>
                refine ⟨.out .null, recordPointers σ a path, ?_, hrh⟩
                simp only [visit]
                rw [if_neg hstk]
                simp only [hhf]
            | some node =>
                have ha : a ∈ heapAddrs σ.heap := by
                  rw [← hrh]
                  exact heapFind_mem_addrs _ a node hhf
                have hmem : ¬ a ∈ stack := by
                  intro hmem
                  exact hstk (List.elem_iff.mpr hmem)
                have hbound : remaining σ.heap (a :: stack) < fuel := by
                  have := remaining_push σ.heap stack a ha hmem
                  omega
                have hvc : ∀ c p pk σx, DSt.heap σx = σ.heap →
                    ∃ r σ', visit fuel c p pk (a :: stack) σx = some (r, σ')
                      ∧ DSt.heap σ' = σ.heap := by
                  intro c p pk σx hh
                  obtain ⟨r, σ', hv, hh'⟩ := ih c p pk (a :: stack) σx (by rw [hh]; exact hbound)
                  exact ⟨r, σ', hv, by rw [hh', hh]⟩
                cases node with
                | arr elems =>
                    obtain ⟨results, σ₄, hve, h₄⟩ :=
                      visitElems_total _ σ.heap hvc elems path 0
                        { recordPointers σ a path with ctr := (recordPointers σ a path).ctr + 1 }
                        hrh
                    cases hfind : results.find? isBubbleMarker with
                    | some m =>
                        cases m with
                        | marker ref b =>
                            refine ⟨.out (.obj σ₄.ctr [("$ref", OVal.str ref)]),
                              { σ₄ with ctr := σ₄.ctr + 1 }, ?_, h₄⟩
                            simp only [visit]
                            rw [if_neg hstk]
                            simp only [hhf, alloca, hve, hfind]
                        | out v =>
                            cases hwm : wrapMarkers results σ₄ with
                            | mk outs σ₅ =>
                                have h₅ : σ₅.heap = σ.heap := by
                                  obtain ⟨hwh, _, _, _⟩ := wrapMarkers_spec _ _ _ _ hwm
                                  rw [hwh, h₄]
                                refine ⟨.out (.arr (recordPointers σ a path).ctr outs),
                                  σ₅, ?_, h₅⟩
                                simp only [visit]
                                rw [if_neg hstk]
                                simp only [hhf, alloca, hve, hfind, hwm]
                    | none =>
                        cases hwm : wrapMarkers results σ₄ with
                        | mk outs σ₅ =>
                            have h₅ : σ₅.heap = σ.heap := by
                              obtain ⟨hwh, _, _, _⟩ := wrapMarkers_spec _ _ _ _ hwm
                              rw [hwh, h₄]
                            refine ⟨.out (.arr (recordPointers σ a path).ctr outs),
                              σ₅, ?_, h₅⟩
                            simp only [visit]
                            rw [if_neg hstk]
                            simp only [hhf, alloca, hve, hfind, hwm]
                | obj fields =>
                    obtain ⟨copy, bub, σ₄, hvf, h₄⟩ :=
                      visitFields_total _ σ.heap hvc fields path
                        { recordPointers σ a path with ctr := (recordPointers σ a path).ctr + 1 }
                        hrh
                    cases bub with
                    | some ref =>
                        refine ⟨.out (.obj σ₄.ctr [("$ref", OVal.str ref)]),
                          { σ₄ with ctr := σ₄.ctr + 1 }, ?_, h₄⟩
                        simp only [visit]
                        rw [if_neg hstk]
                        simp only [hhf, alloca, hvf, objResult]
                    | none =>
                        refine ⟨.out (.obj (recordPointers σ a path).ctr copy), σ₄, ?_, h₄⟩
                        simp only [visit]
                        rw [if_neg hstk]
                        simp only [hhf, alloca, hvf, objResult]

theorem visit_root_out : ∀ (fuel : Nat) (v : JVal) (path : List Seg) (pk : String)
    (σ : DSt) (r : VRes) (σ' : DSt),
    visit fuel v path pk [] σ = some (r, σ') → ∃ o, r = .out o := by
  intro fuel v path pk σ r σ' h
  cases fuel with
  | zero => simp [visit] at h
  | succ fuel =>
      cases v with
      | str s => cases h; exact ⟨_, rfl⟩
      | num n => cases h; exact ⟨_, rfl⟩
      | bool b => cases h; exact ⟨_, rfl⟩
      | null => cases h; exact ⟨_, rfl⟩
      | addr a =>
          simp only [visit] at h
          rw [if_neg (by simp)] at h
          cases hhf : heapFind (recordPointers σ a path).heap a with
          | none =>
              simp only [hhf] at h
              cases h
              exact ⟨_, rfl⟩
          | some node =>
              cases node with
              | arr elems =>
                  simp only [hhf, alloca] at h
                  cases hve : visitElems
                      (fun child p pk σ => visit fuel child p pk (a :: []) σ)
                      elems path 0
                      { recordPointers σ a path with ctr := (recordPointers σ a path).ctr + 1 } with
                  | none =>
                      simp only [hve] at h
                      exact Option.noConfusion h
                  | some rsσ =>
                      obtain ⟨results, σ₄⟩ := rsσ
                      simp only [hve] at h
                      cases hfind : results.find? isBubbleMarker with
                      | some m =>
                          cases m with
                          | marker ref b =>
                              simp only [hfind, alloca] at h
                              cases h
                              exact ⟨_, rfl⟩
                          | out v =>
                              simp only [hfind] at h
                              cases hwm : wrapMarkers results σ₄ with
                              | mk outs σ₅ =>
                                  simp only [hwm] at h
                                  cases h
                                  exact ⟨_, rfl⟩
                      | none =>
                          simp only [hfind] at h
                          cases hwm : wrapMarkers results σ₄ with
                          | mk outs σ₅ =>
                              simp only [hwm] at h
                              cases h
                              exact ⟨_, rfl⟩
              | obj fields =>
                  simp only [hhf, alloca] at h
                  cases hvf : visitFields
                      (fun child p pk σ => visit fuel child p pk (a :: []) σ)
                      fields path
                      { recordPointers σ a path with ctr := (recordPointers σ a path).ctr + 1 } with
                  | none =>
                      simp only [hvf] at h
                      exact Option.noConfusion h
                  | some cbs =>
                      obtain ⟨copy, bub, σ₄⟩ := cbs
                      simp only [hvf] at h
                      cases bub with
                      | some ref =>
                          simp only [objResult, alloca] at h
                          cases h
                          exact ⟨_, rfl⟩
                      | none =>
                          simp only [objResult] at h
                          cases h
                          exact ⟨_, rfl⟩

theorem le_foldr_max : ∀ (l : List Nat) (a : Nat), a ∈ l → a ≤ l.foldr Nat.max 0 := by
  intro l
  induction l with
  | nil => intro a ha; cases ha
  | cons hd tl ih =>
      intro a ha
      rcases List.mem_cons.mp ha with h0 | hm
      · subst h0
        simp only [List.foldr_cons]
        exact Nat.le_max_left _ _
      · have := ih a hm
        simp only [List.foldr_cons]
        exact le_trans this (Nat.le_max_right _ _)

/-- C3: the Decycler's output is a true tree — `decycleDocument` succeeds on
every input graph, including graphs with identity cycles or acyclic
sharing, and no identity tag occurs at two distinct positions of the
output. -/
theorem decycle_output_is_tree (h : Heap) (v : JVal) :
    ∃ out, decycleDocument h v = some out ∧ (idsOf out).Nodup := by
  have hrem : remaining (initSt h).heap [] < h.length + 1 := by
    unfold remaining
    have h1 : ((heapAddrs (initSt h).heap).toFinset \ ([] : List Nat).toFinset).card
        ≤ (heapAddrs (initSt h).heap).toFinset.card := Finset.card_le_card (Finset.sdiff_subset)
    have h2 : (heapAddrs (initSt h).heap).toFinset.card ≤ (heapAddrs (initSt h).heap).length :=
      (heapAddrs (initSt h).heap).toFinset_card_le
    have h3 : (heapAddrs (initSt h).heap).length = h.length := by
      simp [heapAddrs, initSt]
    omega
  obtain ⟨r, σ', hv, _⟩ := visit_total (h.length + 1) v [] "" [] (initSt h) hrem
  obtain ⟨out, rfl⟩ := visit_root_out _ v [] "" _ r σ' hv
  refine ⟨out, ?_, ?_⟩
  · unfold decycleDocument decycleDocumentFull
    rw [hv]
    rfl
  · have := visit_spanOK _ v [] "" [] (initSt h) _ σ' hv
    exact this.2.2.2

/-- C10: `decycleDocument` never mutates its input — the heap after the
traversal is the input heap unchanged — and the output is built entirely
from freshly allocated mappings and sequences: every identity tag in the
output lies outside the input's address space, so only scalar leaves are
shared with the input. -/
theorem decycle_no_input_mutation (h : Heap) (v : JVal) :
    ∃ out σf, decycleDocumentFull h v = some (out, σf) ∧ σf.heap = h
      ∧ ∀ i ∈ idsOf out, ¬ i ∈ heapAddrs h := by
  have hrem : remaining (initSt h).heap [] < h.length + 1 := by
    unfold remaining
    have h1 : ((heapAddrs (initSt h).heap).toFinset \ ([] : List Nat).toFinset).card
        ≤ (heapAddrs (initSt h).heap).toFinset.card := Finset.card_le_card (Finset.sdiff_subset)
    have h2 : (heapAddrs (initSt h).heap).toFinset.card ≤ (heapAddrs (initSt h).heap).length :=
      (heapAddrs (initSt h).heap).toFinset_card_le
    have h3 : (heapAddrs (initSt h).heap).length = h.length := by
      simp [heapAddrs, initSt]
    omega
  obtain ⟨r, σ', hv, hheap⟩ := visit_total (h.length + 1) v [] "" [] (initSt h) hrem
  obtain ⟨out, rfl⟩ := visit_root_out _ v [] "" _ r σ' hv
  have hspan := visit_spanOK _ v [] "" [] (initSt h) _ σ' hv
  refine ⟨out, σ', ?_, ?_, ?_⟩
  · unfold decycleDocumentFull
    rw [hv]
  · exact hheap
  · intro i hi hmem
    have hrange := hspan.2.2.1 i hi
    have hle := le_foldr_max (heapAddrs h) i hmem
    have : (initSt h).ctr = maxAddr h + 1 := rfl
    unfold maxAddr at this
    omega

/-- C1 (amended): on cyclic inputs whose recorded pointer targets survive
to the output, the Decycler's cycle-breaking `$ref`s resolve within the
output document; the unrestricted claim fails only through the bubbled
replacement of the counterexample below, which discards the mapping a
recorded pointer points into.  Three cyclic scenarios, on heaps whose
mappings use neither `"$ref"` nor `"__circularRef"` (so every output
`$ref` is introduced by the Decycler and the constructor-tagged markers
of the model coincide with the JS property test): the spec's `Node`
schema — `Node.properties.children` becomes exactly
`\x7b"$ref": "#/components/schemas/Node"\x7d`, the component pointer, and that
pointer resolves via RFC 6901 to the decycled copy of the very `Node`
schema the ref replaced; a self-referential mapping, whose sole ref
carries its first-seen pointer `"#/root"` and resolves to the copy built
there; and a shared self-looping subtree, where both emitted refs carry
the target's first-seen pointer `"#/x"` and resolve to the copy built at
that first visit. -/
theorem decycle_cycle_refs_resolve :
    ((heapNoRefKeys exHeapNode && heapNoMarkerKeys exHeapNode) = true
      ∧ decycleDocument exHeapNode (.addr 0) = some exNodeOut
      ∧ refsOf exNodeOut = ["#/components/schemas/Node"]
      ∧ resolveJsonRef exNodeOut "#/components/schemas/Node" = some exNodeSchemaOut)
    ∧ ((heapNoRefKeys exHeapSelf && heapNoMarkerKeys exHeapSelf) = true
      ∧ decycleDocument exHeapSelf (.addr 0) = some exSelfOut
      ∧ refsOf exSelfOut = ["#/root"]
      ∧ resolveJsonRef exSelfOut "#/root" = some exSelfRootOut)
    ∧ ((heapNoRefKeys exHeapShared && heapNoMarkerKeys exHeapShared) = true
      ∧ decycleDocument exHeapShared (.addr 0) = some exSharedOut
      ∧ refsOf exSharedOut = ["#/x", "#/x"]
      ∧ resolveJsonRef exSharedOut "#/x" = some exSharedXOut) :=
  ⟨⟨rfl, rfl, rfl, rfl⟩, ⟨rfl, rfl, rfl, rfl⟩, ⟨rfl, rfl, rfl, rfl⟩⟩

/-- C1 counterexample: on `exHeapC1` — whose mappings never use the key
"$ref", so every `$ref` in the output is introduced by the Decycler —
the output contains the `$ref` string "#/a/p", recorded as node 2's
first-seen pointer under "a"/"p", yet the bubbled replacement of node 1 by
a bare reference object removed that location, and "#/a/p" does not
resolve against the output document at all. -/
theorem decycle_dangling_ref_counterexample :
    heapNoRefKeys exHeapC1 = true ∧
    (match decycleDocument exHeapC1 (.addr 0) with
     | some out => (refsOf out).contains "#/a/p" && (resolveJsonRef out "#/a/p").isNone
     | none => false) = true := ⟨rfl, rfl⟩

/-- When `visitFields` records no bubbling marker, the copy preserves the
mapping's keys exactly (non-bubbling markers replace only the child value in
place). -/
theorem visitFields_keys (vc : JVal → List Seg → String → DSt → Option (VRes × DSt)) :
    ∀ (fields : List (String × JVal)) (path : List Seg) (σ : DSt) copy σ',
      visitFields vc fields path σ = some (copy, none, σ') →
      copy.map Prod.fst = fields.map Prod.fst := by
  intro fields
  induction fields with
  | nil =>
      intro path σ copy σ' h
      simp only [visitFields] at h
      cases h
      rfl
  | cons hd tl ih =>
      intro path σ copy σ' h
      obtain ⟨key, child⟩ := hd
      simp only [visitFields] at h
      cases hv : vc child (path ++ [.key key]) key σ with
      | none =>
          simp only [hv] at h
          exact Option.noConfusion h
      | some rσ =>
          obtain ⟨r₁, σ₁⟩ := rσ
          simp only [hv] at h
          cases r₁ with
          | out v =>
              cases hrest : visitFields vc tl path σ₁ with
              | none =>
                  simp only [hrest] at h
                  exact Option.noConfusion h
              | some cbs =>
                  obtain ⟨copy', bub', σ₂⟩ := cbs
                  simp only [hrest] at h
                  cases h
                  simp only [List.map_cons]
                  rw [ih path σ₁ copy' σ' hrest]
          | marker ref bb =>
              cases bb with
              | false =>
                  simp only [alloca] at h
                  cases hrest : visitFields vc tl path { σ₁ with ctr := σ₁.ctr + 1 } with
                  | none =>
                      simp only [hrest] at h
                      exact Option.noConfusion h
                  | some cbs =>
                      obtain ⟨copy', bub', σ₂⟩ := cbs
                      simp only [hrest] at h
                      cases h
                      simp only [List.map_cons]
                      rw [ih path _ copy' σ' hrest]
              | true =>
                  cases hrest : visitFields vc tl path σ₁ with
                  | none =>
                      simp only [hrest] at h
                      exact Option.noConfusion h
                  | some cbs =>
                      obtain ⟨copy', bub', σ₂⟩ := cbs
                      simp only [hrest] at h
                      cases bub' with
                      | none => simp at h
                      | some b => simp at h

/-- C4: the cycle-marker protocol of `visit`.  A child address on the
visiting stack yields a marker carrying `markerPointer` (the component
pointer if recorded, else the first-seen pointer, else the pointer built
from the current path) whose bubble flag is set exactly when the parent key
is "properties"; a mapping that received a bubbling marker is discarded
entirely for a fresh one-field reference object, while a non-bubbling
marker replaces only that child's value by a fresh reference object,
leaving every sibling key intact. -/
theorem visit_cycle_marker_spec :
    (∀ (fuel a : Nat) (path : List Seg) (pk : String) (stack : List Nat) (σ : DSt),
      stack.contains a = true →
      visit (fuel + 1) (.addr a) path pk stack σ =
        some (.marker (markerPointer σ a path) (pk == "properties"), σ))
    ∧ (∀ (σ : DSt) (a : Nat) (path : List Seg) (cp : String),
        lookupA σ.cptrs a = some cp → markerPointer σ a path = cp)
    ∧ (∀ (σ : DSt) (a : Nat) (path : List Seg) (fp : String),
        lookupA σ.cptrs a = none → lookupA σ.ptrs a = some fp →
        markerPointer σ a path = fp)
    ∧ (∀ (σ : DSt) (a : Nat) (path : List Seg),
        lookupA σ.cptrs a = none → lookupA σ.ptrs a = none →
        markerPointer σ a path = buildJsonPointer path)
    ∧ (∀ (id : Nat) (copy : List (String × OVal)) (ref : String) (σ : DSt),
        objResult id copy (some ref) σ =
          (.out (.obj σ.ctr [("$ref", .str ref)]), { σ with ctr := σ.ctr + 1 }))
    ∧ (∀ (vc : JVal → List Seg → String → DSt → Option (VRes × DSt))
        (key : String) (child : JVal) (rest : List (String × JVal))
        (path : List Seg) (σ σ₁ σ₂ : DSt) (ref : String) copy bub,
        vc child (path ++ [.key key]) key σ = some (.marker ref true, σ₁) →
        visitFields vc rest path σ₁ = some (copy, bub, σ₂) →
        visitFields vc ((key, child) :: rest) path σ =
          some (copy,
            (match bub with | some b => some b | none => some ref), σ₂))
    ∧ (∀ (vc : JVal → List Seg → String → DSt → Option (VRes × DSt))
        (key : String) (child : JVal) (rest : List (String × JVal))
        (path : List Seg) (σ σ₁ σ₂ : DSt) (ref : String) copy bub,
        vc child (path ++ [.key key]) key σ = some (.marker ref false, σ₁) →
        visitFields vc rest path { σ₁ with ctr := σ₁.ctr + 1 } = some (copy, bub, σ₂) →
        visitFields vc ((key, child) :: rest) path σ =
          some ((key, .obj σ₁.ctr [("$ref", .str ref)]) :: copy, bub, σ₂))
    ∧ (∀ (vc : JVal → List Seg → String → DSt → Option (VRes × DSt))
        (fields : List (String × JVal)) (path : List Seg) (σ : DSt) copy σ',
        visitFields vc fields path σ = some (copy, none, σ') →
        copy.map Prod.fst = fields.map Prod.fst) := by
  refine ⟨?_, ?_, ?_, ?_, ?_, ?_, ?_, ?_⟩
  · intro fuel a path pk stack σ hstk
    simp only [visit]
    rw [if_pos hstk]
    rfl
  · intro σ a path cp hcp
    unfold markerPointer
    rw [hcp]
  · intro σ a path fp hc hp
    unfold markerPointer
    rw [hc, hp]
  · intro σ a path hc hp
    unfold markerPointer
    rw [hc, hp]
  · intro id copy ref σ
    rfl
  · intro vc key child rest path σ σ₁ σ₂ ref copy bub h1 h2
    simp only [visitFields, h1, h2]
  · intro vc key child rest path σ σ₁ σ₂ ref copy bub h1 h2
    simp only [visitFields, h1, alloca, h2]
  · exact fun vc => visitFields_keys vc

/-- C4 witness: the marker protocol instantiated at concrete states — a
stack hit under parent key "properties" yields a bubbling marker carrying
the first-seen pointer; the three pointer preferences evaluated; a bubbled
mapping discarded for a reference object; a non-bubbling marker replacing
one child in place with its sibling keys kept. -/
theorem visit_cycle_marker_spec_witness :
    visit 1 (.addr 5) [.key "k"] "properties" [5] σC4 =
      some (.marker (markerPointer σC4 5 [.key "k"]) ("properties" == "properties"), σC4)
    ∧ markerPointer σC4b 5 [] = "#/comp"
    ∧ markerPointer σC4 5 [] = "#/first"
    ∧ markerPointer σC4c 5 [.key "a"] = buildJsonPointer [.key "a"]
    ∧ objResult 7 [("x", .str "s")] (some "#/p") σC4 =
        (.out (.obj 9 [("$ref", .str "#/p")]), { σC4 with ctr := 10 })
    ∧ visitFields (fun _ _ _ σ => some (.marker "#/m" true, σ))
        [("k", .null)] [] σC4 = some ([], some "#/m", σC4)
    ∧ visitFields (fun _ _ _ σ => some (.marker "#/m" false, σ))
        [("k", .null)] [] σC4 =
        some ([("k", .obj 9 [("$ref", .str "#/m")])], none, { σC4 with ctr := 10 })
    ∧ [("a", OVal.null), ("b", OVal.null)].map Prod.fst =
        [("a", JVal.null), ("b", JVal.null)].map Prod.fst := by
  refine ⟨visit_cycle_marker_spec.1 0 5 [.key "k"] "properties" [5] σC4 (by decide),
    visit_cycle_marker_spec.2.1 σC4b 5 [] "#/comp" rfl,
    visit_cycle_marker_spec.2.2.1 σC4 5 [] "#/first" rfl rfl,
    visit_cycle_marker_spec.2.2.2.1 σC4c 5 [.key "a"] rfl rfl,
    visit_cycle_marker_spec.2.2.2.2.1 7 [("x", .str "s")] "#/p" σC4,
    visit_cycle_marker_spec.2.2.2.2.2.1 _ "k" .null [] [] σC4 σC4 σC4 "#/m" [] none rfl rfl,
    visit_cycle_marker_spec.2.2.2.2.2.2.1 _ "k" .null [] [] σC4 σC4 _ "#/m" [] none rfl rfl,
    visit_cycle_marker_spec.2.2.2.2.2.2.2 (fun _ _ _ σ => some (.out .null, σ))
      [("a", JVal.null), ("b", JVal.null)] [] σC4
      [("a", OVal.null), ("b", OVal.null)] σC4 rfl⟩

end Decycler

namespace Resolver

theorem lookupD_setD_self (m : List (String × Node)) (k : String) (v : Node) :
    lookupD (setD m k v) k = some v := by
  induction m with
  | nil => simp [setD, lookupD]
  | cons hd tl ih =>
      obtain ⟨k1, w⟩ := hd
      simp only [setD]
      by_cases h : k1 == k
      · rw [if_pos h]
        simp only [lookupD]
        rw [if_pos h]
      · rw [if_neg h]
        simp only [lookupD]
        rw [if_neg h]
        exact ih

theorem lookupD_setD_ne (m : List (String × Node)) (k key : String) (v : Node)
    (h : (k == key) = false) :
    lookupD (setD m k v) key = lookupD m key := by
  induction m with
  | nil => simp [setD, lookupD, h]
  | cons hd tl ih =>
      obtain ⟨k1, w⟩ := hd
      simp only [setD]
      by_cases hk : k1 == k
      · rw [if_pos hk]
        simp only [lookupD]
        have hk1 : (k1 == key) = false := by
          have he : k1 = k := by simpa using hk
          subst he
          exact h
        rw [hk1]
        simp
      · rw [if_neg hk]
        simp only [lookupD]
        by_cases hky : k1 == key
        · rw [if_pos hky, if_pos hky]
        · rw [if_neg hky, if_neg hky]
          exact ih

theorem lookupD_mergeEntries_skip :
    ∀ (entries node : List (String × Node)) (x : String),
      (∀ q ∈ entries, (q.1 == x) = false) →
      lookupD (mergeEntries node entries) x = lookupD node x := by
  intro entries
  induction entries with
  | nil => intro node x _; rfl
  | cons hd tl ih =>
      intro node x hno
      obtain ⟨k1, v1⟩ := hd
      show lookupD (mergeEntries (setD node k1 v1) tl) x = lookupD node x
      rw [ih (setD node k1 v1) x (fun q hq => hno q (List.mem_cons_of_mem _ hq))]
      exact lookupD_setD_ne node k1 x v1 (hno (k1, v1) (List.mem_cons_self _ _))

theorem lookupD_mergeEntries_mem :
    ∀ (entries node : List (String × Node)) (k : String) (v : Node),
      nodupKeysN entries = true → (k, v) ∈ entries →
      lookupD (mergeEntries node entries) k = some v := by
  intro entries
  induction entries with
  | nil => intro node k v _ hm; cases hm
  | cons hd tl ih =>
      intro node k v hnd hm
      obtain ⟨k1, v1⟩ := hd
      simp only [nodupKeysN, Bool.and_eq_true] at hnd
      obtain ⟨hnohd, hndtl⟩ := hnd
      show lookupD (mergeEntries (setD node k1 v1) tl) k = some v
      rcases List.mem_cons.mp hm with h0 | hmtl
      · injection h0 with hk hv
        subst hk
        subst hv
        have hany : (tl.any fun q => q.1 == k) = false := by
          cases hx : tl.any fun q => q.1 == k
          · rfl
          · rw [hx] at hnohd
            simp at hnohd
        have hno : ∀ q ∈ tl, (q.1 == k) = false := by
          intro q hq
          have hnq := List.any_eq_false.mp hany q hq
          cases hqq : q.1 == k
          · rfl
          · exact absurd hqq hnq
        rw [lookupD_mergeEntries_skip tl (setD node k v) k hno]
        exact lookupD_setD_self node k v
      · exact ih (setD node k1 v1) k v hndtl hmtl

theorem resolveNode_ref_eq (C : RCtx) (fuel : Nat) (fields : List (String × Node))
    (r : String) (docKey : String) (baseUrl : Option String) (σ : RSt)
    (href : lookupD fields "$ref" = some (.str r))
    (hne : (trimSpace r == "") = false) :
    resolveNode C (fuel + 1) (.obj fields) docKey baseUrl σ =
      (match resolveRef C fuel (trimSpace r) docKey baseUrl σ with
       | (.error e, σ1) => (.error e, σ1)
       | (.ok (resolved, targetKey, targetBase), σ1) =>
           match resolved with
           | .obj entries =>
               resolveNode C fuel (.obj (mergeEntries (delEntry fields "$ref") entries))
                 targetKey targetBase σ1
           | _ =>
               if (delEntry fields "$ref").isEmpty then (.ok resolved, σ1)
               else
                 resolveNode C fuel
                   (.obj (setD (delEntry fields "$ref") "value" resolved))
                   targetKey targetBase σ1) := by
  simp only [resolveNode, href]
  rw [if_neg (by simp [hne])]

/-- C6 (amended): the merge policy of `resolveNode` on a mapping carrying a
non-empty-string `$ref`.  The ref is resolved; `$ref` is deleted; a mapping
target has its entries assigned into the node one by one — a sibling key
that collides with a target entry is OVERWRITTEN by the target's value
(siblings survive only for keys the target lacks; they are not an overlay
over the target) — and resolution re-runs on the merged node; a scalar or
sequence target replaces the node outright when no sibling keys remain,
else it is attached under the synthetic key `value` and resolution
continues on the node. -/
theorem resolveNode_merge_policy :
    (∀ (C : RCtx) (fuel : Nat) (fields : List (String × Node)) (r : String)
       (docKey : String) (baseUrl : Option String) (σ : RSt),
      lookupD fields "$ref" = some (.str r) →
      (trimSpace r == "") = false →
      resolveNode C (fuel + 1) (.obj fields) docKey baseUrl σ =
        (match resolveRef C fuel (trimSpace r) docKey baseUrl σ with
         | (.error e, σ1) => (.error e, σ1)
         | (.ok (resolved, targetKey, targetBase), σ1) =>
             match resolved with
             | .obj entries =>
                 resolveNode C fuel (.obj (mergeEntries (delEntry fields "$ref") entries))
                   targetKey targetBase σ1
             | _ =>
                 if (delEntry fields "$ref").isEmpty then (.ok resolved, σ1)
                 else
                   resolveNode C fuel
                     (.obj (setD (delEntry fields "$ref") "value" resolved))
                     targetKey targetBase σ1))
    ∧ (∀ (entries node : List (String × Node)) (k : String) (v : Node),
        nodupKeysN entries = true → (k, v) ∈ entries →
        lookupD (mergeEntries node entries) k = some v)
    ∧ (∀ (entries node : List (String × Node)) (x : String),
        (∀ q ∈ entries, (q.1 == x) = false) →
        lookupD (mergeEntries node entries) x = lookupD node x) :=
  ⟨fun C fuel fields r docKey baseUrl σ href hne =>
      resolveNode_ref_eq C fuel fields r docKey baseUrl σ href hne,
    lookupD_mergeEntries_mem,
    lookupD_mergeEntries_skip⟩

/-- C6 counterexample: resolving `exDocC6` — where `n` carries the sibling
`a: 1` next to `$ref: "#/d"` and the target `d` maps `a` to 2 — yields
`a: 2` inside `n`: the target's entry overwrote the sibling key, so the
sibling did not act as an overlay (an overlay would have kept `a: 1`). -/
theorem resolveNode_overlay_counterexample :
    (resolveDocument noNetCtx 12 exDocC6 none).1 =
      .ok (.obj [("d", .obj [("a", .num 2)]), ("n", .obj [("a", .num 2)])]) := rfl

/-- C6 witness: the branch equation applied to the sibling-carrying node of
`exDocC6`, and the two merge facts at concrete entry lists — a colliding
key is overwritten by the target, a non-colliding sibling is preserved. -/
theorem resolveNode_merge_policy_witness :
    (resolveNode noNetCtx 11 (.obj [("a", .num 1), ("$ref", .str "#/d")]) ROOT_KEY none σC6 =
      (match resolveRef noNetCtx 10 (trimSpace "#/d") ROOT_KEY none σC6 with
       | (.error e, σ1) => (.error e, σ1)
       | (.ok (resolved, targetKey, targetBase), σ1) =>
           match resolved with
           | .obj entries =>
               resolveNode noNetCtx 10
                 (.obj (mergeEntries (delEntry [("a", .num 1), ("$ref", .str "#/d")] "$ref") entries))
                 targetKey targetBase σ1
           | _ =>
               if (delEntry [("a", .num 1), ("$ref", .str "#/d")] "$ref").isEmpty then
                 (.ok resolved, σ1)
               else
                 resolveNode noNetCtx 10
                   (.obj (setD (delEntry [("a", .num 1), ("$ref", .str "#/d")] "$ref")
                     "value" resolved))
                   targetKey targetBase σ1))
    ∧ lookupD (mergeEntries [("a", .num 1)] [("a", .num 2)]) "a" = some (.num 2)
    ∧ lookupD (mergeEntries [("a", .num 1)] [("b", .num 3)]) "a" =
        lookupD [("a", .num 1)] "a" :=
  ⟨resolveNode_merge_policy.1 noNetCtx 10 [("a", .num 1), ("$ref", .str "#/d")] "#/d"
      ROOT_KEY none σC6 rfl rfl,
    resolveNode_merge_policy.2.1 [("a", .num 2)] [("a", .num 1)] "a" (.num 2)
      rfl (List.mem_cons_self _ _),
    resolveNode_merge_policy.2.2 [("b", .num 3)] [("a", .num 1)] "a" (by decide)⟩

theorem lookupD_setD_isSome (m : List (String × Node)) (k : String) (v : Node)
    (x : String) (h : (lookupD m x).isSome = true) :
    (lookupD (setD m k v) x).isSome = true := by
  by_cases hkx : (k == x) = true
  · have he : k = x := by simpa using hkx
    subst he
    rw [lookupD_setD_self]
    rfl
  · have hkx1 : (k == x) = false := by
      cases h2 : k == x
      · rfl
      · exact absurd h2 hkx
    rw [lookupD_setD_ne m k x v hkx1]
    exact h

theorem resolver_no_refetch (C : RCtx) : ∀ fuel : Nat,
    (∀ node docKey baseUrl σ, InvR σ → PostR (resolveNode C fuel node docKey baseUrl σ))
    ∧ (∀ items docKey baseUrl σ, InvR σ → PostR (resolveList C fuel items docKey baseUrl σ))
    ∧ (∀ fields docKey baseUrl σ, InvR σ →
        PostR (resolveFields C fuel fields docKey baseUrl σ))
    ∧ (∀ ref docKey baseUrl σ, InvR σ → PostR (resolveRef C fuel ref docKey baseUrl σ))
    ∧ (∀ key url σ, InvR σ →
        (∀ u, url = some u → (u == "") = false → u = key) →
        PostR (getDocument C fuel key url σ)) := by
  intro fuel
  induction fuel with
  | zero =>
      exact ⟨fun _ _ _ σ hσ => hσ.1, fun _ _ _ σ hσ => hσ.1, fun _ _ _ σ hσ => hσ.1,
        fun _ _ _ σ hσ => hσ.1, fun _ _ σ hσ _ => hσ.1⟩
  | succ fuel ih =>
      obtain ⟨ihN, ihL, ihF, ihR, ihD⟩ := ih
      refine ⟨?_, ?_, ?_, ?_, ?_⟩
      · intro node docKey baseUrl σ hσ
        cases hall : resolveNode C (fuel + 1) node docKey baseUrl σ with
        | mk res0 σf =>
            cases node with
            | str s =>
                simp only [resolveNode] at hall
                cases hall
                exact hσ
            | num n =>
                simp only [resolveNode] at hall
                cases hall
                exact hσ
            | bool b =>
                simp only [resolveNode] at hall
                cases hall
                exact hσ
            | null =>
                simp only [resolveNode] at hall
                cases hall
                exact hσ
            | arr items =>
                simp only [resolveNode] at hall
                have h1 := ihL items docKey baseUrl σ hσ
                cases hres : resolveList C fuel items docKey baseUrl σ with
                | mk rl σ1 =>
                    rw [hres] at h1
                    cases rl with
                    | ok v =>
                        simp only [hres] at hall
                        cases hall
                        exact h1
                    | error e =>
                        simp only [hres] at hall
                        cases hall
                        exact h1
            | obj fields =>
                simp only [resolveNode] at hall
                cases hrf : lookupD fields "$ref" with
                | none =>
                    simp only [hrf] at hall
                    have h1 := ihF fields docKey baseUrl σ hσ
                    cases hres : resolveFields C fuel fields docKey baseUrl σ with
                    | mk rl σ1 =>
                        rw [hres] at h1
                        cases rl with
                        | ok v =>
                            simp only [hres] at hall
                            cases hall
                            exact h1
                        | error e =>
                            simp only [hres] at hall
                            cases hall
                            exact h1
                | some nv =>
                    cases nv with
                    | str rs =>
                        simp only [hrf] at hall
                        by_cases htr : (trimSpace rs == "") = true
                        · simp only [if_pos htr] at hall
                          have h1 := ihF fields docKey baseUrl σ hσ
                          cases hres : resolveFields C fuel fields docKey baseUrl σ with
                          | mk rl σ1 =>
                              rw [hres] at h1
                              cases rl with
                              | ok v =>
                                  simp only [hres] at hall
                                  cases hall
                                  exact h1
                              | error e =>
                                  simp only [hres] at hall
                                  cases hall
                                  exact h1
                        · simp only [if_neg htr] at hall
                          have h1 := ihR (trimSpace rs) docKey baseUrl σ hσ
                          cases hres : resolveRef C fuel (trimSpace rs) docKey baseUrl σ with
                          | mk rr σ1 =>
                              rw [hres] at h1
                              cases rr with
                              | error e =>
                                  simp only [hres] at hall
                                  cases hall
                                  exact h1
                              | ok tup =>
                                  obtain ⟨resolved, targetKey, targetBase⟩ := tup
                                  cases resolved with
                                  | obj entries =>
                                      simp only [hres] at hall
                                      have h2 := ihN
                                        (.obj (mergeEntries (delEntry fields "$ref") entries))
                                        targetKey targetBase σ1 h1
                                      rw [hall] at h2
                                      exact h2
                                  | str s2 =>
                                      simp only [hres] at hall
                                      by_cases he : (delEntry fields "$ref").isEmpty = true
                                      · rw [if_pos he] at hall
                                        cases hall
                                        exact h1
                                      · rw [if_neg he] at hall
                                        have h2 := ihN
                                          (.obj (setD (delEntry fields "$ref") "value" (.str s2)))
                                          targetKey targetBase σ1 h1
                                        rw [hall] at h2
                                        exact h2
                                  | num n2 =>
                                      simp only [hres] at hall
                                      by_cases he : (delEntry fields "$ref").isEmpty = true
                                      · rw [if_pos he] at hall
                                        cases hall
                                        exact h1
                                      · rw [if_neg he] at hall
                                        have h2 := ihN
                                          (.obj (setD (delEntry fields "$ref") "value" (.num n2)))
                                          targetKey targetBase σ1 h1
                                        rw [hall] at h2
                                        exact h2
                                  | bool b2 =>
                                      simp only [hres] at hall
                                      by_cases he : (delEntry fields "$ref").isEmpty = true
                                      · rw [if_pos he] at hall
                                        cases hall
                                        exact h1
                                      · rw [if_neg he] at hall
                                        have h2 := ihN
                                          (.obj (setD (delEntry fields "$ref") "value" (.bool b2)))
                                          targetKey targetBase σ1 h1
                                        rw [hall] at h2
                                        exact h2
                                  | null =>
                                      simp only [hres] at hall
                                      by_cases he : (delEntry fields "$ref").isEmpty = true
                                      · rw [if_pos he] at hall
                                        cases hall
                                        exact h1
                                      · rw [if_neg he] at hall
                                        have h2 := ihN
                                          (.obj (setD (delEntry fields "$ref") "value" .null))
                                          targetKey targetBase σ1 h1
                                        rw [hall] at h2
                                        exact h2
                                  | arr items2 =>
                                      simp only [hres] at hall
                                      by_cases he : (delEntry fields "$ref").isEmpty = true
                                      · rw [if_pos he] at hall
                                        cases hall
                                        exact h1
                                      · rw [if_neg he] at hall
                                        have h2 := ihN
                                          (.obj (setD (delEntry fields "$ref") "value" (.arr items2)))
                                          targetKey targetBase σ1 h1
                                        rw [hall] at h2
                                        exact h2
                    | num n =>
                        simp only [hrf] at hall
                        have h1 := ihF fields docKey baseUrl σ hσ
                        cases hres : resolveFields C fuel fields docKey baseUrl σ with
                        | mk rl σ1 =>
                            rw [hres] at h1
                            cases rl with
                            | ok v =>
                                simp only [hres] at hall
                                cases hall
                                exact h1
                            | error e =>
                                simp only [hres] at hall
                                cases hall
                                exact h1
                    | bool b =>
                        simp only [hrf] at hall
                        have h1 := ihF fields docKey baseUrl σ hσ
                        cases hres : resolveFields C fuel fields docKey baseUrl σ with
                        | mk rl σ1 =>
                            rw [hres] at h1
                            cases rl with
                            | ok v =>
                                simp only [hres] at hall
                                cases hall
                                exact h1
                            | error e =>
                                simp only [hres] at hall
                                cases hall
                                exact h1
                    | null =>
                        simp only [hrf] at hall
                        have h1 := ihF fields docKey baseUrl σ hσ
                        cases hres : resolveFields C fuel fields docKey baseUrl σ with
                        | mk rl σ1 =>
                            rw [hres] at h1
                            cases rl with
                            | ok v =>
                                simp only [hres] at hall
                                cases hall
                                exact h1
                            | error e =>
                                simp only [hres] at hall
                                cases hall
                                exact h1
                    | arr items2 =>
                        simp only [hrf] at hall
                        have h1 := ihF fields docKey baseUrl σ hσ
                        cases hres : resolveFields C fuel fields docKey baseUrl σ with
                        | mk rl σ1 =>
                            rw [hres] at h1
                            cases rl with
                            | ok v =>
                                simp only [hres] at hall
                                cases hall
                                exact h1
                            | error e =>
                                simp only [hres] at hall
                                cases hall
                                exact h1
                    | obj fls =>
                        simp only [hrf] at hall
                        have h1 := ihF fields docKey baseUrl σ hσ
                        cases hres : resolveFields C fuel fields docKey baseUrl σ with
                        | mk rl σ1 =>
                            rw [hres] at h1
                            cases rl with
                            | ok v =>
                                simp only [hres] at hall
                                cases hall
                                exact h1
                            | error e =>
                                simp only [hres] at hall
                                cases hall
                                exact h1
      · intro items docKey baseUrl σ hσ
        cases hall : resolveList C (fuel + 1) items docKey baseUrl σ with
        | mk res0 σf =>
            cases items with
            | nil =>
                simp only [resolveList] at hall
                cases hall
                exact hσ
            | cons x rest =>
                simp only [resolveList] at hall
                have h1 := ihN x docKey baseUrl σ hσ
                cases hres : resolveNode C fuel x docKey baseUrl σ with
                | mk r1 σ1 =>
                    rw [hres] at h1
                    cases r1 with
                    | error e =>
                        simp only [hres] at hall
                        cases hall
                        exact h1
                    | ok x1 =>
                        simp only [hres] at hall
                        have h2 := ihL rest docKey baseUrl σ1 h1
                        cases hres2 : resolveList C fuel rest docKey baseUrl σ1 with
                        | mk r2 σ2 =>
                            rw [hres2] at h2
                            cases r2 with
                            | error e =>
                                simp only [hres2] at hall
                                cases hall
                                exact h2
                            | ok rest1 =>
                                simp only [hres2] at hall
                                cases hall
                                exact h2
      · intro fields docKey baseUrl σ hσ
        cases hall : resolveFields C (fuel + 1) fields docKey baseUrl σ with
        | mk res0 σf =>
            cases fields with
            | nil =>
                simp only [resolveFields] at hall
                cases hall
                exact hσ
            | cons hd rest =>
                obtain ⟨k, v⟩ := hd
                simp only [resolveFields] at hall
                have h1 := ihN v docKey baseUrl σ hσ
                cases hres : resolveNode C fuel v docKey baseUrl σ with
                | mk r1 σ1 =>
                    rw [hres] at h1
                    cases r1 with
                    | error e =>
                        simp only [hres] at hall
                        cases hall
                        exact h1
                    | ok v1 =>
                        simp only [hres] at hall
                        have h2 := ihF rest docKey baseUrl σ1 h1
                        cases hres2 : resolveFields C fuel rest docKey baseUrl σ1 with
                        | mk r2 σ2 =>
                            rw [hres2] at h2
                            cases r2 with
                            | error e =>
                                simp only [hres2] at hall
                                cases hall
                                exact h2
                            | ok rest1 =>
                                simp only [hres2] at hall
                                cases hall
                                exact h2
      · intro ref docKey baseUrl σ hσ
        cases hall : resolveRef C (fuel + 1) ref docKey baseUrl σ with
        | mk res0 σf =>
            simp only [resolveRef] at hall
            by_cases hsw : strStartsWith ref "#" = true
            · simp only [if_pos hsw] at hall
              have h1 := ihD docKey none σ hσ (fun u hu _ => Option.noConfusion hu)
              cases hgd : getDocument C fuel docKey none σ with
              | mk rd σ1 =>
                  rw [hgd] at h1
                  cases rd with
                  | error e =>
                      simp only [hgd] at hall
                      cases hall
                      exact h1
                  | ok document =>
                      simp only [hgd] at hall
                      by_cases hfr : (ref == "") = true
                      · simp only [if_pos hfr] at hall
                        have h2 := ihN (deepCopy document) docKey baseUrl σ1 h1
                        cases hrn : resolveNode C fuel (deepCopy document) docKey baseUrl σ1 with
                        | mk rn σ2 =>
                            rw [hrn] at h2
                            cases rn with
                            | error e =>
                                simp only [hrn] at hall
                                cases hall
                                exact h2
                            | ok resolved =>
                                simp only [hrn] at hall
                                cases hall
                                exact h2
                      · simp only [if_neg hfr] at hall
                        cases hlk : jsonPointerLookup document ⟨ref.data.drop 1⟩ with
                        | none =>
                            simp only [hlk] at hall
                            cases hall
                            exact h1.1
                        | some value =>
                            simp only [hlk] at hall
                            have h2 := ihN (deepCopy value) docKey baseUrl σ1 h1
                            cases hrn : resolveNode C fuel (deepCopy value) docKey baseUrl σ1 with
                            | mk rn σ2 =>
                                rw [hrn] at h2
                                cases rn with
                                | error e =>
                                    simp only [hrn] at hall
                                    cases hall
                                    exact h2
                                | ok resolved =>
                                    simp only [hrn] at hall
                                    cases hall
                                    exact h2
            · simp only [if_neg hsw] at hall
              cases hur : C.urlResolve ref baseUrl with
              | none =>
                  simp only [hur] at hall
                  cases hall
                  exact hσ.1
              | some pr =>
                  obtain ⟨href, frag⟩ := pr
                  simp only [hur] at hall
                  by_cases hh : (href == "") = true
                  · simp only [if_pos hh] at hall
                    have hside : ∀ u0, (some href : Option String) = some u0 →
                        (u0 == "") = false → u0 = docKey := by
                      intro u0 hu0 hne2
                      cases hu0
                      rw [hh] at hne2
                      exact Bool.noConfusion hne2
                    have h1 := ihD docKey (some href) σ hσ hside
                    cases hgd : getDocument C fuel docKey (some href) σ with
                    | mk rd σ1 =>
                        rw [hgd] at h1
                        cases rd with
                        | error e =>
                            simp only [hgd] at hall
                            cases hall
                            exact h1
                        | ok document =>
                            simp only [hgd] at hall
                            by_cases hfr : (frag == "") = true
                            · simp only [if_pos hfr] at hall
                              have h2 := ihN (deepCopy document) docKey baseUrl σ1 h1
                              cases hrn : resolveNode C fuel (deepCopy document) docKey baseUrl σ1 with
                              | mk rn σ2 =>
                                  rw [hrn] at h2
                                  cases rn with
                                  | error e =>
                                      simp only [hrn] at hall
                                      cases hall
                                      exact h2
                                  | ok resolved =>
                                      simp only [hrn] at hall
                                      cases hall
                                      exact h2
                            · simp only [if_neg hfr] at hall
                              cases hlk : jsonPointerLookup document
                                  (if strStartsWith frag "#" then ⟨frag.data.drop 1⟩ else frag) with
                              | none =>
                                  simp only [hlk] at hall
                                  cases hall
                                  exact h1.1
                              | some value =>
                                  simp only [hlk] at hall
                                  have h2 := ihN (deepCopy value) docKey baseUrl σ1 h1
                                  cases hrn : resolveNode C fuel (deepCopy value) docKey baseUrl σ1 with
                                  | mk rn σ2 =>
                                      rw [hrn] at h2
                                      cases rn with
                                      | error e =>
                                          simp only [hrn] at hall
                                          cases hall
                                          exact h2
                                      | ok resolved =>
                                          simp only [hrn] at hall
                                          cases hall
                                          exact h2
                  · simp only [if_neg hh] at hall
                    have h1 := ihD href (some href) σ hσ (fun u hu _ => by cases hu; rfl)
                    cases hgd : getDocument C fuel href (some href) σ with
                    | mk rd σ1 =>
                        rw [hgd] at h1
                        cases rd with
                        | error e =>
                            simp only [hgd] at hall
                            cases hall
                            exact h1
                        | ok document =>
                            simp only [hgd] at hall
                            by_cases hfr : (frag == "") = true
                            · simp only [if_pos hfr] at hall
                              have h2 := ihN (deepCopy document) href (some href) σ1 h1
                              cases hrn : resolveNode C fuel (deepCopy document) href (some href) σ1 with
                              | mk rn σ2 =>
                                  rw [hrn] at h2
                                  cases rn with
                                  | error e =>
                                      simp only [hrn] at hall
                                      cases hall
                                      exact h2
                                  | ok resolved =>
                                      simp only [hrn] at hall
                                      cases hall
                                      exact h2
                            · simp only [if_neg hfr] at hall
                              cases hlk : jsonPointerLookup document
                                  (if strStartsWith frag "#" then ⟨frag.data.drop 1⟩ else frag) with
                              | none =>
                                  simp only [hlk] at hall
                                  cases hall
                                  exact h1.1
                              | some value =>
                                  simp only [hlk] at hall
                                  have h2 := ihN (deepCopy value) href (some href) σ1 h1
                                  cases hrn : resolveNode C fuel (deepCopy value) href (some href) σ1 with
                                  | mk rn σ2 =>
                                      rw [hrn] at h2
                                      cases rn with
                                      | error e =>
                                          simp only [hrn] at hall
                                          cases hall
                                          exact h2
                                      | ok resolved =>
                                          simp only [hrn] at hall
                                          cases hall
                                          exact h2
      · intro key url σ hσ hku
        cases hall : getDocument C (fuel + 1) key url σ with
        | mk res0 σf =>
            simp only [getDocument] at hall
            cases hdk : lookupD σ.docs key with
            | some doc =>
                simp only [hdk] at hall
                cases hall
                exact hσ
            | none =>
                cases url with
                | none =>
                    simp only [hdk] at hall
                    cases hall
                    exact hσ.1
                | some u =>
                    by_cases hu : (u == "") = true
                    · simp only [hdk, if_pos hu] at hall
                      cases hall
                      exact hσ.1
                    · have hukey : u = key :=
                        hku u rfl (by
                          cases h2 : u == ""
                          · rfl
                          · exact absurd h2 hu)
                      simp only [hdk, if_neg hu] at hall
                      have hunotin : ¬ u ∈ σ.fetchLog := by
                        intro hmem
                        have hsm := hσ.2 u hmem
                        rw [hukey, hdk] at hsm
                        simp at hsm
                      have hlognodup : (σ.fetchLog ++ [u]).Nodup := by
                        rw [List.nodup_append]
                        refine ⟨hσ.1, List.nodup_singleton u, ?_⟩
                        intro a ha hau
                        have hae : a = u := by simpa using hau
                        subst hae
                        exact hunotin ha
                      cases hf : C.fetchFn u with
                      | none =>
                          simp only [hf] at hall
                          cases hall
                          exact hlognodup
                      | some contents =>
                          simp only [hf] at hall
                          cases hp : C.parseFn contents with
                          | none =>
                              simp only [hp] at hall
                              cases hall
                              exact hlognodup
                          | some parsed =>
                              simp only [hp] at hall
                              cases hn : normalizeYaml parsed with
                              | obj nfields =>
                                  simp only [hn] at hall
                                  have hInv2 : InvR
                                      ⟨setD σ.docs key (Node.obj nfields),
                                        σ.resolving ++ [key], σ.fetchLog ++ [u]⟩ := by
                                    refine ⟨hlognodup, ?_⟩
                                    intro x hx
                                    rcases List.mem_append.mp hx with hx1 | hx2
                                    · exact lookupD_setD_isSome σ.docs key (Node.obj nfields) x
                                        (hσ.2 x hx1)
                                    · have hxu : x = u := by simpa using hx2
                                      subst hxu
                                      rw [hukey, lookupD_setD_self]
                                      rfl
                                  have h1 := ihN (Node.obj nfields) key (some u)
                                    ⟨setD σ.docs key (Node.obj nfields),
                                      σ.resolving ++ [key], σ.fetchLog ++ [u]⟩ hInv2
                                  cases hrn : resolveNode C fuel (Node.obj nfields) key (some u)
                                      ⟨setD σ.docs key (Node.obj nfields),
                                        σ.resolving ++ [key], σ.fetchLog ++ [u]⟩ with
                                  | mk rn σ3 =>
                                      rw [hrn] at h1
                                      cases rn with
                                      | error e =>
                                          simp only [hrn] at hall
                                          cases hall
                                          exact h1
                                      | ok resolved =>
                                          simp only [hrn] at hall
                                          cases hall
                                          refine ⟨h1.1, ?_⟩
                                          intro x hx
                                          exact lookupD_setD_isSome σ3.docs key resolved x
                                            (h1.2 x hx)
                              | str s =>
                                  simp only [hn] at hall
                                  cases hall
                                  exact hlognodup
                              | num n =>
                                  simp only [hn] at hall
                                  cases hall
                                  exact hlognodup
                              | bool b =>
                                  simp only [hn] at hall
                                  cases hall
                                  exact hlognodup
                              | null =>
                                  simp only [hn] at hall
                                  cases hall
                                  exact hlognodup
                              | arr items =>
                                  simp only [hn] at hall
                                  cases hall
                                  exact hlognodup

/-- C5: within one resolution run started on a document registered under
`ROOT_KEY` in a fresh resolver, the Fetcher invocation log never repeats a
URI — for every absolute target URI the Fetcher is invoked at most once,
however many refs target it and whether the run succeeds or aborts — 
because `getDocument` only fetches on a Document Store miss and registers
the fetched document under its canonical key before recursively
self-resolving it, so every later lookup of that key reuses the store. -/
theorem fetcher_at_most_once (C : RCtx) (fuel : Nat) (doc : Node)
    (baseUrl : Option String) :
    (resolveDocument C fuel doc baseUrl).2.fetchLog.Nodup := by
  have h := (resolver_no_refetch C fuel).1 doc ROOT_KEY baseUrl
    { docs := [(ROOT_KEY, doc)], resolving := [], fetchLog := [] }
    ⟨List.nodup_nil, fun x hx => absurd hx (List.not_mem_nil x)⟩
  unfold resolveDocument
  cases hr : resolveNode C fuel doc ROOT_KEY baseUrl
      { docs := [(ROOT_KEY, doc)], resolving := [], fetchLog := [] } with
  | mk r σf =>
      rw [hr] at h
      cases r with
      | ok v => exact h.1
      | error e => exact h

end Resolver
